import Mathlib

/-!
# The averaged feature-weight store of `yap` (`alg/featurevector/avgsparse.go`)

A shallow embedding of `HistoryValue`, the two `TransitionScoreStore`
implementations (`LockedArray`, `LockedMap`) and `AvgSparse`, followed by the
properties established about them.

Conventions of the embedding.

* Go `int` and `int64` are the integers `Int`: the specification leaves overflow to
  the caller, and no statement below depends on wrap-around.  `/` on `int64` is
  truncated division, `Int.tdiv` (its one overflow, the least `int64` divided by -1,
  is set aside with the others); `int64Quo` and `UpdateScalarDivideInt64` keep the
  wrap-around of that quotient, the one step of the store that is not a ring operation.
* Transitions and slice offsets are `Nat` (the data model has no negative transition).
* A Go `map` is an association list with distinct keys, see `mapSet`.
* A call that panics returns `none`.
* The mutexes are left out: every call runs to completion before the next one
  starts, and the goroutine `AvgSparse.Add` spawns is run on the spot.
* Pointer semantics are kept: a store held in `stores` or a `*HistoryValue` held in a
  `LockedMap` is updated in place, whereas the loop variable of a `range` over a slice
  of structs is a copy whose changes are dropped.
-/

namespace Yap

/-! ## Go maps -/

/-- The assignment `m[k] = x` on a Go map: overwrite the entry of `k`, or add one. -/
def mapSet {κ α : Type} [BEq κ] (m : List (κ × α)) (k : κ) (x : α) : List (κ × α) :=
  match m.lookup k with
  | some _ => m.map fun e => if e.1 == k then (k, x) else e
  | none => m ++ [(k, x)]

/-- The keys of a Go map. -/
def mapKeys {κ α : Type} (m : List (κ × α)) : List κ :=
  m.map Prod.fst

/-! ## HistoryValue -/

/-- The struct `HistoryValue`. -/
structure HistoryValue where
  Generation : Int
  PrevGeneration : Int
  Value : Int
  Total : Int
  IsSet : Bool
deriving DecidableEq, Repr

namespace HistoryValue

/-- The zero value `HistoryValue{}`, what `make([]HistoryValue, n)` is filled with. -/
def zero : HistoryValue :=
  { Generation := 0, PrevGeneration := 0, Value := 0, Total := 0, IsSet := false }

/-- The method `IntegratedValue`. -/
def IntegratedValue (h : HistoryValue) (generation : Int) : Int :=
  h.Total + (generation - h.Generation) * h.Value

/-- The method `Integrate`. -/
def Integrate (h : HistoryValue) (generation : Int) : HistoryValue :=
  { h with Value := h.IntegratedValue generation }

/-- The method `Add`: close the interval under the guard, shift the generations,
add the amount. -/
def Add (h : HistoryValue) (generation : Int) (amount : Int) : HistoryValue :=
  let h1 : HistoryValue :=
    if h.PrevGeneration < h.Generation then
      { h with Total := h.Total + (generation - h.Generation) * h.Value }
    else h
  let h2 : HistoryValue :=
    if h1.Generation < generation then
      { h1 with PrevGeneration := h1.Generation, Generation := generation }
    else h1
  { h2 with Value := h2.Value + amount }

end HistoryValue

/-- The constructor `NewHistoryValue`: only `Generation` and `Value` are given, the
other fields (`IsSet` among them) keep their zero value. -/
def NewHistoryValue (generation : Int) (value : Int) : HistoryValue :=
  { HistoryValue.zero with Generation := generation, Value := value }

/-! ## Feature keys -/

/-- Feature keys are Go `interface{}` values.  Two kinds occur: the keys a caller
passes (strings here) and the `int` keys `Serialize` writes. -/
inductive Feature where
  | str (s : String)
  | int (n : Int)
deriving DecidableEq, Repr

/-! ## LockedArray, the dense store -/

/-- The struct `LockedArray`.  Only the slice `Data` is state: the embedded buffer
`arrayData` is never written (`Data` aliases it only while it has length 0 after
`Init`, and inside `ExtendFor` until `newVals` replaces it), so it stays 94 zero
values, see `LockedArray.arrayData`. -/
structure LockedArray where
  Data : List HistoryValue
deriving DecidableEq, Repr

namespace LockedArray

/-- The field `arrayData [94]HistoryValue`. -/
def arrayData : List HistoryValue :=
  List.replicate 94 HistoryValue.zero

/-- The method `Init`: `l.Data = l.arrayData[0:0]`. -/
def Init (_l : LockedArray) : LockedArray :=
  { Data := arrayData.take 0 }

/-- The method `ExtendFor`.  When `transition < 94` the slice is first replaced by
`arrayData[:transition+1]`; then a fresh `newVals` of length `transition+1` receives
a copy of `Data` and becomes `Data`.  The slice expression `newVals[0:len(l.Data)]`
panics when `len(l.Data)` exceeds `transition+1`. -/
def ExtendFor (l : LockedArray) (_generation : Int) (transition : Nat) : Option LockedArray :=
  let data : List HistoryValue :=
    if transition < arrayData.length then arrayData.take (transition + 1) else l.Data
  let newVals : List HistoryValue := List.replicate (transition + 1) HistoryValue.zero
  if data.length ≤ newVals.length then
    some { Data := data ++ newVals.drop data.length }
  else none

/-- The composite literal
`HistoryValue{Generation: generation, Value: amount, IsSet: true}` of `LockedArray.Add`. -/
def literal (generation : Int) (amount : Int) : HistoryValue :=
  { HistoryValue.zero with Generation := generation, Value := amount, IsSet := true }

/-- The method `Add` of the dense store. -/
def Add (l : LockedArray) (generation : Int) (transition : Nat) (_feature : Feature)
    (amount : Int) : Option LockedArray :=
  match l.Data[transition]? with
  | some cell =>
    if cell.IsSet then
      some { Data := l.Data.set transition (cell.Add generation amount) }
    else
      some { Data := l.Data.set transition (literal generation amount) }
  | none =>
    match l.ExtendFor generation transition with
    | none => none
    | some l1 =>
      if l1.Data.length ≤ transition then none
      else
        some { Data := l1.Data.set transition (literal generation amount) }

/-- The method `SetValue` of the dense store: `ExtendFor`, then `l.Data[key] = *value`. -/
def SetValue (l : LockedArray) (key : Nat) (value : HistoryValue) : Option LockedArray :=
  match l.ExtendFor value.Generation key with
  | none => none
  | some l1 => if key < l1.Data.length then some { Data := l1.Data.set key value } else none

/-- The method `GetValue` of the dense store; `none` is the `nil` pointer. -/
def GetValue (l : LockedArray) (key : Nat) : Option HistoryValue :=
  l.Data[key]?

/-- The method `Integrate` of the dense store.  The loop variable `v` of
`for _, v := range l.Data` is a copy of the element; the integrated copy is
dropped when the iteration ends. -/
def Integrate (l : LockedArray) (generation : Int) : LockedArray :=
  l.Data.foldl
    (fun acc v =>
      let _v : HistoryValue := if v.IsSet then v.Integrate generation else v
      acc)
    l

/-- The method `Len` of the dense store. -/
def Len (l : LockedArray) : Nat :=
  l.Data.length

/-- The loop of `LockedArray.Each`: the callback receives the position, the address of
the copy `hist` and the state it closes over; it may panic.  What it writes to
`hist` is dropped, what it does to its own state is kept. -/
def eachLoop {σ : Type} (f : Nat → HistoryValue → σ → Option (HistoryValue × σ)) :
    Nat → List HistoryValue → σ → Option σ
  | _, [], s => some s
  | i, hist :: rest, s =>
    match f i hist s with
    | none => none
    | some (_, s1) => eachLoop f (i + 1) rest s1

/-- The method `Each` of the dense store. -/
def Each {σ : Type} (l : LockedArray) (f : Nat → HistoryValue → σ → Option (HistoryValue × σ))
    (s : σ) : Option (LockedArray × σ) :=
  match eachLoop f 0 l.Data s with
  | none => none
  | some s1 => some (l, s1)

end LockedArray

/-! ## LockedMap, the sparse store -/

/-- The struct `LockedMap`.  The map holds pointers, all of them obtained from
`NewHistoryValue`, so none is `nil`. -/
structure LockedMap where
  Vals : List (Nat × HistoryValue)
deriving DecidableEq, Repr

namespace LockedMap

/-- The method `Init` of the sparse store does nothing. -/
def Init (l : LockedMap) : LockedMap :=
  l

/-- The method `Add` of the sparse store. -/
def Add (l : LockedMap) (generation : Int) (transition : Nat) (_feature : Feature)
    (amount : Int) : LockedMap :=
  match l.Vals.lookup transition with
  | some historyValue =>
    { Vals := mapSet l.Vals transition (historyValue.Add generation amount) }
  | none =>
    { Vals := mapSet l.Vals transition (NewHistoryValue generation amount) }

/-- The method `Integrate` of the sparse store: `v` is a pointer, the cell changes. -/
def Integrate (l : LockedMap) (generation : Int) : LockedMap :=
  { Vals := l.Vals.map fun e => (e.1, e.2.Integrate generation) }

/-- The method `Len` of the sparse store: the number of keys. -/
def Len (l : LockedMap) : Nat :=
  l.Vals.length

/-- The method `SetValue` of the sparse store. -/
def SetValue (l : LockedMap) (key : Nat) (value : HistoryValue) : LockedMap :=
  { Vals := mapSet l.Vals key value }

/-- The method `GetValue` of the sparse store; `none` is the `nil` pointer. -/
def GetValue (l : LockedMap) (key : Nat) : Option HistoryValue :=
  l.Vals.lookup key

/-- The loop of `LockedMap.Each`: the callback receives the key, the pointer held in
the map and the state it closes over; what it writes through the pointer stays. -/
def eachLoop {σ : Type} (f : Nat → HistoryValue → σ → Option (HistoryValue × σ)) :
    List (Nat × HistoryValue) → σ → Option (List (Nat × HistoryValue) × σ)
  | [], s => some ([], s)
  | (i, hist) :: rest, s =>
    match f i hist s with
    | none => none
    | some (hist1, s1) =>
      match eachLoop f rest s1 with
      | none => none
      | some (rest1, s2) => some ((i, hist1) :: rest1, s2)

/-- The method `Each` of the sparse store. -/
def Each {σ : Type} (l : LockedMap) (f : Nat → HistoryValue → σ → Option (HistoryValue × σ))
    (s : σ) : Option (LockedMap × σ) :=
  match eachLoop f l.Vals s with
  | none => none
  | some (vals, s1) => some ({ Vals := vals }, s1)

end LockedMap

/-! ## TransitionScoreStore, the interface -/

/-- A value of the interface `TransitionScoreStore`: the `nil` interface, a
`*LockedArray` or a `*LockedMap`.  A method call on `nil` panics. -/
inductive TransitionScoreStore where
  | nil
  | array (l : LockedArray)
  | map (l : LockedMap)
deriving DecidableEq, Repr

namespace TransitionScoreStore

/-- Dispatch of `Add`. -/
def Add (s : TransitionScoreStore) (generation : Int) (transition : Nat) (feature : Feature)
    (amount : Int) : Option TransitionScoreStore :=
  match s with
  | nil => none
  | array l => (l.Add generation transition feature amount).map array
  | map l => some (map (l.Add generation transition feature amount))

/-- Dispatch of `Integrate`. -/
def Integrate (s : TransitionScoreStore) (generation : Int) : Option TransitionScoreStore :=
  match s with
  | nil => none
  | array l => some (array (l.Integrate generation))
  | map l => some (map (l.Integrate generation))

/-- Dispatch of `Len`. -/
def Len (s : TransitionScoreStore) : Option Nat :=
  match s with
  | nil => none
  | array l => some l.Len
  | map l => some l.Len

/-- Dispatch of `SetValue`. -/
def SetValue (s : TransitionScoreStore) (key : Nat) (value : HistoryValue) :
    Option TransitionScoreStore :=
  match s with
  | nil => none
  | array l => (l.SetValue key value).map array
  | map l => some (map (l.SetValue key value))

/-- Dispatch of `GetValue`: the outer `none` is a panic, the inner `none` the `nil`
pointer. -/
def GetValue (s : TransitionScoreStore) (key : Nat) : Option (Option HistoryValue) :=
  match s with
  | nil => none
  | array l => some (l.GetValue key)
  | map l => some (l.GetValue key)

/-- Dispatch of `Each`. -/
def Each {σ : Type} (s : TransitionScoreStore)
    (f : Nat → HistoryValue → σ → Option (HistoryValue × σ)) (st : σ) :
    Option (TransitionScoreStore × σ) :=
  match s with
  | nil => none
  | array l => (l.Each f st).map fun r => (array r.1, r.2)
  | map l => (l.Each f st).map fun r => (map r.1, r.2)

/-- Dispatch of `Init`. -/
def Init (s : TransitionScoreStore) : Option TransitionScoreStore :=
  match s with
  | nil => none
  | array l => some (array l.Init)
  | map l => some (map l.Init)

end TransitionScoreStore

/-! ## AvgSparse -/

/-- The struct `AvgSparse`, with its slice and its map allocated, as `MakeAvgSparse`
(the constructor of the package) and `Deserialize` leave them: the guard
`v.stores == nil` of `Add` cannot fire on such a value and has no counterpart here. -/
structure AvgSparse where
  Dense : Bool
  stores : List TransitionScoreStore
  Vals : List (Feature × Nat)
deriving DecidableEq, Repr

/-- The constructor `MakeAvgSparse`. -/
def MakeAvgSparse (dense : Bool) : AvgSparse :=
  { Dense := dense, stores := [], Vals := [] }

/-- The body of a `for _, val := range v.stores` loop whose iterations update the
store `val` points to and may panic. -/
def rangeStores (f : TransitionScoreStore → Option TransitionScoreStore) :
    List TransitionScoreStore → Option (List TransitionScoreStore)
  | [] => some []
  | val :: rest =>
    match f val with
    | none => none
    | some val1 =>
      match rangeStores f rest with
      | none => none
      | some rest1 => some (val1 :: rest1)

namespace AvgSparse

/-- The method `Value`.  The two-value map read gives offset 0 for a missing key, and
`v.stores[offset]` is evaluated before `exists` is looked at. -/
def Value (v : AvgSparse) (transition : Nat) (feature : Feature) : Option Int :=
  let offset : Nat := (v.Vals.lookup feature).getD 0
  let found : Bool := (v.Vals.lookup feature).isSome
  match v.stores[offset]? with
  | none => none
  | some transitions =>
    if found then
      match transitions.Len with
      | none => none
      | some n =>
        if transition < n then
          match transitions.GetValue transition with
          | none => none
          | some (some histValue) => some histValue.Value
          | some none => some 0
        else some 0
    else some 0

/-- The method `Add`, the spawned store update run at once. -/
def Add (v : AvgSparse) (generation : Int) (transition : Nat) (feature : Feature)
    (amount : Int) : Option AvgSparse :=
  match v.Vals.lookup feature with
  | some offset =>
    match v.stores[offset]? with
    | none => none
    | some transitions =>
      match transitions.Add generation transition feature amount with
      | none => none
      | some transitions1 => some { v with stores := v.stores.set offset transitions1 }
  | none =>
    let newTrans : TransitionScoreStore :=
      if v.Dense then
        TransitionScoreStore.array { Data := List.replicate (transition + 1) HistoryValue.zero }
      else TransitionScoreStore.map { Vals := [] }
    match newTrans.Init with
    | none => none
    | some newTrans1 =>
      match newTrans1.SetValue transition (NewHistoryValue generation amount) with
      | none => none
      | some newTrans2 =>
        some { v with
          Vals := mapSet v.Vals feature v.stores.length
          stores := v.stores ++ [newTrans2] }

/-- The method `Integrate`. -/
def Integrate (v : AvgSparse) (generation : Int) : Option AvgSparse :=
  match rangeStores (fun val => val.Integrate generation) v.stores with
  | none => none
  | some stores1 => some { v with stores := stores1 }

/-- The callback of `UpdateScalarDivide`,
`histValue.Value = histValue.Value / byValue`, with the quotient taken in the integers
(overflow aside): this is Go's result whenever the truncated quotient is an `int64`.
`divideCellInt64` is the callback with the wrap-around of `int64` kept. -/
def divideCell (byValue : Int) (_i : Nat) (histValue : HistoryValue) (u : Unit) :
    Option (HistoryValue × Unit) :=
  some ({ histValue with Value := histValue.Value.tdiv byValue }, u)

/-- The method `UpdateScalarDivide`. -/
def UpdateScalarDivide (v : AvgSparse) (byValue : Int) : Option AvgSparse :=
  if byValue = 0 then none
  else
    match rangeStores (fun val => (val.Each (divideCell byValue) ()).map Prod.fst) v.stores with
    | none => none
    | some stores1 => some { v with stores := stores1 }

/-- The callback of `Serialize`: `scores[i] = lastScore.Value`, which panics when `i`
is not a position of `scores`; `lastScore` is never `nil`. -/
def writeScore (i : Nat) (lastScore : HistoryValue) (scores : List Int) :
    Option (HistoryValue × List Int) :=
  if i < scores.length then some (lastScore, scores.set i lastScore.Value) else none

/-- The loop of `Serialize`, `for k, v := range v.stores`: `k` is the position of the
store in `stores`, and `retval[k] = scores` files the vector under that `int`. -/
def serializeLoop : Nat → List TransitionScoreStore → Option (List (Feature × List Int))
  | _, [] => some []
  | k, val :: rest =>
    match val.Len with
    | none => none
    | some n =>
      match val.Each writeScore (List.replicate n (0 : Int)) with
      | none => none
      | some (_, scores) =>
        match serializeLoop (k + 1) rest with
        | none => none
        | some retval => some ((Feature.int k, scores) :: retval)

/-- The method `Serialize`: the returned `map[interface{}][]int64`. -/
def Serialize (v : AvgSparse) : Option (List (Feature × List Int)) :=
  serializeLoop 0 v.stores

/-- The method `newTransitionScoreStore`. -/
def newTransitionScoreStore (v : AvgSparse) (size : Nat) : TransitionScoreStore :=
  if v.Dense then TransitionScoreStore.array { Data := List.replicate size HistoryValue.zero }
  else TransitionScoreStore.map { Vals := [] }

/-- The inner loop of `Deserialize`, `for i, value := range datav`. -/
def setValues (generation : Int) :
    Nat → List Int → TransitionScoreStore → Option TransitionScoreStore
  | _, [], scoreStore => some scoreStore
  | i, value :: rest, scoreStore =>
    match scoreStore.SetValue i (NewHistoryValue generation value) with
    | none => none
    | some scoreStore1 => setValues generation (i + 1) rest scoreStore1

/-- The outer loop of `Deserialize`, `for _, k := range allKeys`. -/
def deserializeLoop (generation : Int) :
    List (Feature × List Int) → AvgSparse → Option AvgSparse
  | [], v => some v
  | (k, datav) :: rest, v =>
    match setValues generation 0 datav (v.newTransitionScoreStore datav.length) with
    | none => none
    | some scoreStore =>
      deserializeLoop generation rest
        { v with
          Vals := mapSet v.Vals k v.stores.length
          stores := v.stores ++ [scoreStore] }

/-- The method `Deserialize`.  `data` is the payload, a `map[interface{}][]int64`,
given as its entries in the order `sort.Sort(allKeys)` leaves the keys in
(`util.ByGeneric` is not among the sources, so the order is an input); the keys of
`data` are distinct.  The type assertion on `serialized` holds by typing. -/
def Deserialize (v : AvgSparse) (data : List (Feature × List Int)) (generation : Int) :
    Option AvgSparse :=
  deserializeLoop generation data
    { v with
      Vals := []
      stores := List.replicate data.length TransitionScoreStore.nil }

/-- A call of `AvgSparse.Add`, as (generation, transition, feature, amount). -/
abbrev AddCall : Type := Int × Nat × Feature × Int

/-- A sequence of `Add` calls run one after another. -/
def Adds : AvgSparse → List AddCall → Option AvgSparse
  | v, [] => some v
  | v, (generation, transition, feature, amount) :: rest =>
    match v.Add generation transition feature amount with
    | none => none
    | some v1 => Adds v1 rest

end AvgSparse

/-! ## Histories of one cell -/

/-- A cell after a sequence of `HistoryValue.Add` calls, each given as
(generation, amount). -/
def cellAdds (h : HistoryValue) (adds : List (Int × Int)) : HistoryValue :=
  adds.foldl (fun acc a => acc.Add a.1 a.2) h

/-- A store after a sequence of store `Add` calls on one transition. -/
def storeAdds (s : TransitionScoreStore) (transition : Nat) (feature : Feature) :
    List (Int × Int) → Option TransitionScoreStore
  | [] => some s
  | a :: rest =>
    match s.Add a.1 transition feature a.2 with
    | none => none
    | some s1 => storeAdds s1 transition feature rest

/-- Whether a store `Add` on `transition` creates the cell instead of updating it: the
dense store has no such position or an unset one, the sparse store has no such key. -/
def createsCell (s : TransitionScoreStore) (transition : Nat) : Bool :=
  match s with
  | TransitionScoreStore.nil => false
  | TransitionScoreStore.array l =>
    match l.Data[transition]? with
    | some cell => !cell.IsSet
    | none => true
  | TransitionScoreStore.map l => (l.Vals.lookup transition).isNone

/-- The right-hand side of the integration identity: the sum of `d * (G - g)` over
the adds `(g, d)`. -/
def integralOf (adds : List (Int × Int)) (G : Int) : Int :=
  (adds.map fun a => a.2 * (G - a.1)).sum

/-- The store holds `hv` at `transition` as a cell that a further `Add` updates: a set
element of the dense store, an entry of the sparse store. -/
def holdsCell (s : TransitionScoreStore) (transition : Nat) (hv : HistoryValue) : Prop :=
  match s with
  | TransitionScoreStore.nil => False
  | TransitionScoreStore.array l => l.Data[transition]? = some hv ∧ hv.IsSet = true
  | TransitionScoreStore.map l => l.Vals.lookup transition = some hv

/-- What `UpdateScalarDivide` makes of one cell. -/
def dividedCell (byValue : Int) (h : HistoryValue) : HistoryValue :=
  { h with Value := h.Value.tdiv byValue }

/-- What `UpdateScalarDivide` makes of one sparse store: every cell divided. -/
def dividedStore (byValue : Int) : TransitionScoreStore → TransitionScoreStore
  | TransitionScoreStore.map l =>
    TransitionScoreStore.map { Vals := l.Vals.map fun e => (e.1, dividedCell byValue e.2) }
  | other => other

/-- The state invariant of a sparse `AvgSparse`: every store is a `LockedMap` and every
offset recorded in the index is a position of `stores`. -/
def sparseInv (v : AvgSparse) : Prop :=
  v.Dense = false ∧ (∀ s ∈ v.stores, ∃ l, s = TransitionScoreStore.map l) ∧
    ∀ f o, v.Vals.lookup f = some o → o < v.stores.length

/-! ## Calls that fail part-way, sequences of calls, invariants -/

/-- The stores a `for _, val := range v.stores` loop leaves behind, and whether the loop
ran to its end, for a body that panics only before it changes `val` (`none`): the
stores before the panic have been updated, the others have not. -/
def rangeStoresOutcome (f : TransitionScoreStore → Option TransitionScoreStore) :
    List TransitionScoreStore → List TransitionScoreStore × Bool
  | [] => ([], true)
  | val :: rest =>
    match f val with
    | none => (val :: rest, false)
    | some val1 => (val1 :: (rangeStoresOutcome f rest).1, (rangeStoresOutcome f rest).2)

/-- The method `UpdateScalarDivide` once more, giving the instance the call leaves
behind and whether the call returned: the test of the divisor panics before anything is
touched; a method call on a `nil` store panics when the loop reaches it. -/
def AvgSparse.UpdateScalarDivideOutcome (v : AvgSparse) (byValue : Int) : AvgSparse × Bool :=
  if byValue = 0 then (v, false)
  else
    ({ v with
        stores := (rangeStoresOutcome
          (fun val => (val.Each (AvgSparse.divideCell byValue) ()).map Prod.fst) v.stores).1 },
      (rangeStoresOutcome
        (fun val => (val.Each (AvgSparse.divideCell byValue) ()).map Prod.fst) v.stores).2)

/-- A call of `AvgSparse.Add` or of `AvgSparse.Deserialize`. -/
inductive Call where
  | add (generation : Int) (transition : Nat) (feature : Feature) (amount : Int)
  | deserialize (data : List (Feature × List Int)) (generation : Int)

/-- A sequence of `Add` and `Deserialize` calls run one after another. -/
def AvgSparse.Calls : AvgSparse → List Call → Option AvgSparse
  | v, [] => some v
  | v, Call.add generation transition feature amount :: rest =>
    match v.Add generation transition feature amount with
    | none => none
    | some v1 => AvgSparse.Calls v1 rest
  | v, Call.deserialize data generation :: rest =>
    match v.Deserialize data generation with
    | none => none
    | some v1 => AvgSparse.Calls v1 rest

/-- Every offset of the index is the position of a store that is not `nil`. -/
def indexInv (v : AvgSparse) : Prop :=
  ∀ f o, v.Vals.lookup f = some o → ∃ s, v.stores[o]? = some s ∧ s ≠ TransitionScoreStore.nil

/-- The state invariant of an `AvgSparse` built by Adds: no store is `nil`, every offset
of the index is a position of `stores`, and two features never share an offset. -/
def addsInv (v : AvgSparse) : Prop :=
  (∀ s ∈ v.stores, s ≠ TransitionScoreStore.nil) ∧
    (∀ f o, v.Vals.lookup f = some o → o < v.stores.length) ∧
    ∀ f f1 o, v.Vals.lookup f = some o → v.Vals.lookup f1 = some o → f = f1

/-! ## The quotient of `int64` -/

/-- The least `int64`. -/
def minInt64 : Int := -9223372036854775808

/-- The greatest `int64`. -/
def maxInt64 : Int := 9223372036854775807

/-- An integer taken as an `int64`: reduced modulo 2^64 into the range from `minInt64`
to `maxInt64`. -/
def wrapInt64 (x : Int) : Int :=
  (x - minInt64) % 18446744073709551616 + minInt64

/-- The operator `/` of Go on `int64`, for a divisor other than 0: the quotient
truncated toward zero, as an `int64`.  For `int64` operands the wrap-around shows at
one input only, `minInt64 / -1`, which is `minInt64`. -/
def int64Quo (a b : Int) : Int :=
  wrapInt64 (a.tdiv b)

/-- The callback of `UpdateScalarDivide`,
`histValue.Value = histValue.Value / byValue`, with the `int64` quotient of Go. -/
def AvgSparse.divideCellInt64 (byValue : Int) (_i : Nat) (histValue : HistoryValue) (u : Unit) :
    Option (HistoryValue × Unit) :=
  some ({ histValue with Value := int64Quo histValue.Value byValue }, u)

/-- The method `UpdateScalarDivide`, with the `int64` quotient of Go. -/
def AvgSparse.UpdateScalarDivideInt64 (v : AvgSparse) (byValue : Int) : Option AvgSparse :=
  if byValue = 0 then none
  else
    match rangeStores
      (fun val => (val.Each (AvgSparse.divideCellInt64 byValue) ()).map Prod.fst) v.stores with
    | none => none
    | some stores1 => some { v with stores := stores1 }

/-- What `UpdateScalarDivideInt64` makes of one cell. -/
def dividedCellInt64 (byValue : Int) (h : HistoryValue) : HistoryValue :=
  { h with Value := int64Quo h.Value byValue }

/-- What `UpdateScalarDivideInt64` makes of one sparse store: every cell divided. -/
def dividedStoreInt64 (byValue : Int) : TransitionScoreStore → TransitionScoreStore
  | TransitionScoreStore.map l =>
    TransitionScoreStore.map { Vals := l.Vals.map fun e => (e.1, dividedCellInt64 byValue e.2) }
  | other => other

/-! ## Properties -/

/-! ### Maps -/

theorem lookup_append_single {α : Type} (m : List (Nat × α)) (k : Nat) (x : α)
    (hm : m.lookup k = none) : (m ++ [(k, x)]).lookup k = some x := by
  induction m with
  | nil => simp [List.lookup]
  | cons e m ih =>
    obtain ⟨k1, x1⟩ := e
    by_cases hk : k = k1
    · subst hk; simp [List.lookup] at hm
    · have hb : (k == k1) = false := by simpa using hk
      simp only [List.lookup, hb] at hm
      simp only [List.cons_append, List.lookup, hb]
      exact ih hm

theorem lookup_overwrite {α : Type} (m : List (Nat × α)) (k : Nat) (x : α)
    (hm : (m.lookup k).isSome = true) :
    (m.map fun e => if e.1 == k then (k, x) else e).lookup k = some x := by
  induction m with
  | nil => simp [List.lookup] at hm
  | cons e m ih =>
    obtain ⟨k1, x1⟩ := e
    by_cases hk : k = k1
    · subst hk
      rw [List.map_cons, if_pos (beq_self_eq_true k)]
      simp [List.lookup]
    · have hb : (k == k1) = false := by simpa using hk
      have hb1 : (k1 == k) = false := by simpa using fun h => hk h.symm
      simp only [List.lookup, hb] at hm
      have := ih hm
      simp only [List.map_cons, hb1]
      simpa [List.lookup, hb] using this

theorem lookup_mapSet_self {α : Type} (m : List (Nat × α)) (k : Nat) (x : α) :
    (mapSet m k x).lookup k = some x := by
  unfold mapSet
  cases hm : m.lookup k with
  | none => exact lookup_append_single m k x hm
  | some y => exact lookup_overwrite m k x (by simp [hm])

/-! ### One cell -/

theorem HistoryValue.Add_shift (h : HistoryValue) (g d : Int)
    (hguard : h.PrevGeneration < h.Generation) (hlt : h.Generation < g) :
    h.Add g d =
      { Generation := g, PrevGeneration := h.Generation, Value := h.Value + d,
        Total := h.Total + (g - h.Generation) * h.Value, IsSet := h.IsSet } := by
  simp [HistoryValue.Add, hguard, hlt]

theorem HistoryValue.Add_same (h : HistoryValue) (g d : Int)
    (hguard : h.PrevGeneration < h.Generation) (heq : h.Generation = g) :
    h.Add g d =
      { Generation := h.Generation, PrevGeneration := h.PrevGeneration, Value := h.Value + d,
        Total := h.Total, IsSet := h.IsSet } := by
  subst heq
  simp [HistoryValue.Add, hguard]

theorem HistoryValue.Add_guard (h : HistoryValue) (g d : Int)
    (hguard : h.PrevGeneration < h.Generation) (hle : h.Generation ≤ g) :
    (h.Add g d).PrevGeneration < (h.Add g d).Generation ∧ (h.Add g d).Generation = g ∧
      (h.Add g d).IsSet = h.IsSet ∧
      ∀ G, (h.Add g d).IntegratedValue G = h.IntegratedValue G + d * (G - g) := by
  by_cases hlt : h.Generation < g
  · rw [HistoryValue.Add_shift h g d hguard hlt]
    exact ⟨hlt, rfl, rfl, fun G => by simp only [HistoryValue.IntegratedValue]; ring⟩
  · have heq : h.Generation = g := le_antisymm hle (not_lt.mp hlt)
    rw [HistoryValue.Add_same h g d hguard heq]
    exact ⟨hguard, heq, rfl, fun G => by simp only [HistoryValue.IntegratedValue]; rw [heq]; ring⟩

theorem cellAdds_integrated (adds : List (Int × Int)) (h : HistoryValue)
    (hguard : h.PrevGeneration < h.Generation)
    (hmono : List.Chain (· ≤ ·) h.Generation (adds.map Prod.fst)) (G : Int) :
    (cellAdds h adds).IntegratedValue G = h.IntegratedValue G + integralOf adds G ∧
      (cellAdds h adds).IsSet = h.IsSet := by
  induction adds generalizing h with
  | nil => simp [cellAdds, integralOf]
  | cons a rest ih =>
    simp only [List.map_cons, List.chain_cons] at hmono
    obtain ⟨hle, hrest⟩ := hmono
    obtain ⟨h1, h2, h3, h4⟩ := HistoryValue.Add_guard h a.1 a.2 hguard hle
    have := ih (h.Add a.1 a.2) h1 (by rw [h2]; exact hrest)
    simp only [cellAdds, List.foldl_cons, integralOf, List.map_cons, List.sum_cons] at this ⊢
    rw [this.1, this.2, h4 G, h3]
    exact ⟨by ring, rfl⟩

theorem HistoryValue.Add_IsSet (h : HistoryValue) (g d : Int) : (h.Add g d).IsSet = h.IsSet := by
  unfold HistoryValue.Add
  by_cases h1 : h.PrevGeneration < h.Generation <;> by_cases h2 : h.Generation < g <;>
    simp [h1, h2]

/-! ### One cell of a store -/

theorem holdsCell_GetValue (s : TransitionScoreStore) (t : Nat) (hv : HistoryValue)
    (h : holdsCell s t hv) : s.GetValue t = some (some hv) := by
  cases s with
  | nil => exact absurd h (by simp [holdsCell])
  | array l => simp only [holdsCell] at h; simp [TransitionScoreStore.GetValue, LockedArray.GetValue, h.1]
  | map l => simp only [holdsCell] at h; simp [TransitionScoreStore.GetValue, LockedMap.GetValue, h]

theorem LockedArray.ExtendFor_of_le (l : LockedArray) (g : Int) (t : Nat)
    (hlen : l.Data.length ≤ t) :
    ∃ l1, l.ExtendFor g t = some l1 ∧ l1.Data.length = t + 1 := by
  unfold LockedArray.ExtendFor
  by_cases ht : t < LockedArray.arrayData.length
  · have h94 : t + 1 ≤ LockedArray.arrayData.length := ht
    simp only [ht, if_true, List.length_take, List.length_replicate, min_eq_left h94, le_refl]
    exact ⟨_, rfl, by simp [List.length_take, min_eq_left h94]⟩
  · have hle : l.Data.length ≤ t + 1 := Nat.le_succ_of_le hlen
    simp only [ht, if_false, List.length_replicate, hle, if_true]
    exact ⟨_, rfl, by simp; omega⟩

theorem store_Add_creates (s : TransitionScoreStore) (g : Int) (t : Nat) (f : Feature) (d : Int)
    (hfresh : createsCell s t = true) :
    ∃ s1 hv, s.Add g t f d = some s1 ∧ holdsCell s1 t hv ∧ hv.Generation = g ∧
      hv.PrevGeneration = 0 ∧ hv.Value = d ∧ hv.Total = 0 := by
  cases s with
  | nil => simp [createsCell] at hfresh
  | array l =>
    simp only [createsCell] at hfresh
    cases hcell : l.Data[t]? with
    | some cell =>
      simp only [hcell, Bool.not_eq_true'] at hfresh
      have hlt : t < l.Data.length := by
        by_contra hge
        rw [List.getElem?_eq_none (not_lt.mp hge)] at hcell
        exact Option.noConfusion hcell
      refine ⟨TransitionScoreStore.array { Data := l.Data.set t (LockedArray.literal g d) },
        LockedArray.literal g d, ?_, ?_, rfl, rfl, rfl, rfl⟩
      · simp [TransitionScoreStore.Add, LockedArray.Add, hcell, hfresh]
      · simp only [holdsCell]
        exact ⟨by simp [List.getElem?_set, hlt], rfl⟩
    | none =>
      have hge : l.Data.length ≤ t := by
        by_contra hlt
        rw [List.getElem?_eq_getElem (not_le.mp hlt)] at hcell
        exact Option.noConfusion hcell
      obtain ⟨l1, hl1, hlen⟩ := LockedArray.ExtendFor_of_le l g t hge
      have hnot : ¬ l1.Data.length ≤ t := by omega
      refine ⟨TransitionScoreStore.array { Data := l1.Data.set t (LockedArray.literal g d) },
        LockedArray.literal g d, ?_, ?_, rfl, rfl, rfl, rfl⟩
      · simp [TransitionScoreStore.Add, LockedArray.Add, hcell, hl1, hnot]
      · simp only [holdsCell]
        exact ⟨by simp [List.getElem?_set, hlen], rfl⟩
  | map l =>
    simp only [createsCell, Option.isNone_iff_eq_none] at hfresh
    refine ⟨TransitionScoreStore.map { Vals := mapSet l.Vals t (NewHistoryValue g d) },
      NewHistoryValue g d, ?_, ?_, rfl, rfl, rfl, rfl⟩
    · simp [TransitionScoreStore.Add, LockedMap.Add, hfresh]
    · simp only [holdsCell]
      exact lookup_mapSet_self _ _ _

theorem store_Add_updates (s : TransitionScoreStore) (g : Int) (t : Nat) (f : Feature) (d : Int)
    (hv : HistoryValue) (h : holdsCell s t hv) :
    ∃ s1, s.Add g t f d = some s1 ∧ holdsCell s1 t (hv.Add g d) := by
  cases s with
  | nil => exact absurd h (by simp [holdsCell])
  | array l =>
    simp only [holdsCell] at h
    obtain ⟨hcell, hset⟩ := h
    have hlt : t < l.Data.length := by
      by_contra hge
      rw [List.getElem?_eq_none (not_lt.mp hge)] at hcell
      exact Option.noConfusion hcell
    refine ⟨TransitionScoreStore.array { Data := l.Data.set t (hv.Add g d) }, ?_, ?_⟩
    · simp [TransitionScoreStore.Add, LockedArray.Add, hcell, hset]
    · simp only [holdsCell]
      exact ⟨by simp [List.getElem?_set, hlt], by rw [HistoryValue.Add_IsSet]; exact hset⟩
  | map l =>
    simp only [holdsCell] at h
    refine ⟨TransitionScoreStore.map { Vals := mapSet l.Vals t (hv.Add g d) }, ?_, ?_⟩
    · simp [TransitionScoreStore.Add, LockedMap.Add, h]
    · simp only [holdsCell]
      exact lookup_mapSet_self _ _ _

theorem storeAdds_updates (adds : List (Int × Int)) (s : TransitionScoreStore) (t : Nat)
    (f : Feature) (hv : HistoryValue) (h : holdsCell s t hv) :
    ∃ s1, storeAdds s t f adds = some s1 ∧ holdsCell s1 t (cellAdds hv adds) := by
  induction adds generalizing s hv with
  | nil => exact ⟨s, rfl, h⟩
  | cons a rest ih =>
    obtain ⟨s1, hs1, hh1⟩ := store_Add_updates s a.1 t f a.2 hv h
    obtain ⟨s2, hs2, hh2⟩ := ih s1 (hv.Add a.1 a.2) hh1
    exact ⟨s2, by simp only [storeAdds, hs1, hs2], by simpa [cellAdds] using hh2⟩

/-! ### C1: the integration identity -/

/-- C1 (as amended): a cell of a dense or sparse store that a first store
`Add(g1, t, f, d1)` creates and that `Add(g2, t, f, d2)`, ..., `Add(gn, t, f, dn)`
then update, with `1 ≤ g1 ≤ g2 ≤ ... ≤ gn`, exists after these calls (none of them
fails) and has, at every query generation `G` (so at every `G ≥ gn`),
`IntegratedValue(G)` equal to the sum of `di * (G - gi)`. -/
theorem integration_identity (s : TransitionScoreStore) (t : Nat) (f : Feature) (g1 d1 : Int)
    (rest : List (Int × Int)) (G : Int)
    (hfresh : createsCell s t = true) (hpos : 1 ≤ g1)
    (hmono : List.Chain (· ≤ ·) g1 (rest.map Prod.fst)) :
    ∃ s1 hv, storeAdds s t f ((g1, d1) :: rest) = some s1 ∧
      s1.GetValue t = some (some hv) ∧
      hv.IntegratedValue G = integralOf ((g1, d1) :: rest) G := by
  obtain ⟨s0, hv0, hadd, hcell, hgen, hprev, hval, htot⟩ := store_Add_creates s g1 t f d1 hfresh
  obtain ⟨s1, hs1, hcell1⟩ := storeAdds_updates rest s0 t f hv0 hcell
  have hguard : hv0.PrevGeneration < hv0.Generation := by rw [hprev, hgen]; omega
  obtain ⟨hint, _⟩ := cellAdds_integrated rest hv0 hguard (by rw [hgen]; exact hmono) G
  refine ⟨s1, cellAdds hv0 rest, ?_, holdsCell_GetValue s1 t _ hcell1, ?_⟩
  · simp only [storeAdds, hadd, hs1]
  · rw [hint]
    simp only [HistoryValue.IntegratedValue, hgen, hval, htot, integralOf, List.map_cons,
      List.sum_cons]
    ring

/-- C1, an instance of the amended identity: scenario S2 on an empty dense store,
`Add(1, 0, "A", 3)` then `Add(3, 0, "A", 2)`
give an `IntegratedValue(5)` equal to the sum over the two adds (which is 16). -/
theorem integration_identity_witness :
    createsCell (TransitionScoreStore.array { Data := [] }) 0 = true ∧ (1 : Int) ≤ 1 ∧
      List.Chain (· ≤ ·) (1 : Int) ([((3 : Int), (2 : Int))].map Prod.fst) ∧
      ∃ s1 hv,
        storeAdds (TransitionScoreStore.array { Data := [] }) 0 (Feature.str "A")
          [(1, 3), (3, 2)] = some s1 ∧
        s1.GetValue 0 = some (some hv) ∧
        hv.IntegratedValue 5 = integralOf [(1, 3), (3, 2)] 5 :=
  ⟨by decide, by decide, by simp,
    integration_identity (TransitionScoreStore.array { Data := [] }) 0 (Feature.str "A") 1 3
      [(3, 2)] 5 (by decide) (by decide) (by simp)⟩

/-- C1 as stated fails when the first generation is 0: on an empty dense store and on
an empty sparse store, `Add(0, 0, "A", 3)` then `Add(2, 0, "A", 0)` leave a cell whose
`IntegratedValue(2)` is 0, while the sum of `di * (2 - gi)` is 6. -/
theorem integration_identity_fails_at_generation_zero :
    createsCell (TransitionScoreStore.array { Data := [] }) 0 = true ∧
      createsCell (TransitionScoreStore.map { Vals := [] }) 0 = true ∧
      List.Chain (· ≤ ·) (0 : Int) [2] ∧
      (storeAdds (TransitionScoreStore.array { Data := [] }) 0 (Feature.str "A")
          [(0, 3), (2, 0)]).map
        (fun s1 => (s1.GetValue 0).map (Option.map fun hv => hv.IntegratedValue 2)) =
        some (some (some 0)) ∧
      (storeAdds (TransitionScoreStore.map { Vals := [] }) 0 (Feature.str "A")
          [(0, 3), (2, 0)]).map
        (fun s1 => (s1.GetValue 0).map (Option.map fun hv => hv.IntegratedValue 2)) =
        some (some (some 0)) ∧
      integralOf [(0, 3), (2, 0)] 2 = 6 :=
  ⟨by decide, by decide, by simp, by decide, by decide, by decide⟩

/-! ### Sparse instances built by Adds -/

theorem lookup_append_entry {κ α : Type} [BEq κ] (m : List (κ × α)) (k k1 : κ) (x : α) :
    (m ++ [(k, x)]).lookup k1 =
      match m.lookup k1 with
      | some y => some y
      | none => if k1 == k then some x else none := by
  induction m with
  | nil => cases hb : k1 == k <;> simp [List.lookup, hb]
  | cons e m ih =>
    obtain ⟨k2, x2⟩ := e
    cases hb : k1 == k2
    · simp only [List.cons_append, List.lookup, hb]
      exact ih
    · simp only [List.cons_append, List.lookup, hb]

theorem lookup_map_snd {α β : Type} (m : List (Nat × α)) (k : Nat) (h : α → β) :
    (m.map fun e => (e.1, h e.2)).lookup k = (m.lookup k).map h := by
  induction m with
  | nil => simp [List.lookup]
  | cons e m ih =>
    obtain ⟨k1, x1⟩ := e
    cases hb : k == k1
    · simp only [List.map_cons, List.lookup, hb]
      exact ih
    · simp only [List.map_cons, List.lookup, hb, Option.map_some']

theorem lookup_isSome_of_mem_keys (m : List (Feature × Nat)) (f : Feature)
    (h : f ∈ mapKeys m) : ∃ o, m.lookup f = some o := by
  induction m with
  | nil => simp [mapKeys] at h
  | cons e m ih =>
    obtain ⟨k1, x1⟩ := e
    by_cases hk : f = k1
    · subst hk
      exact ⟨x1, by simp [List.lookup]⟩
    · have hb : (f == k1) = false := by simpa using hk
      simp only [mapKeys, List.map_cons, List.mem_cons, hk, false_or] at h
      obtain ⟨o, ho⟩ := ih h
      exact ⟨o, by simp only [List.lookup, hb]; exact ho⟩

theorem sparseInv_Make : sparseInv (MakeAvgSparse false) := by
  refine ⟨rfl, ?_, ?_⟩
  · intro s hs
    simp [MakeAvgSparse] at hs
  · intro f o h
    simp [MakeAvgSparse, List.lookup] at h

theorem sparseInv_Add (v : AvgSparse) (g : Int) (t : Nat) (f : Feature) (d : Int)
    (hinv : sparseInv v) : ∃ v1, v.Add g t f d = some v1 ∧ sparseInv v1 := by
  obtain ⟨hdense, hmaps, hidx⟩ := hinv
  unfold AvgSparse.Add
  cases hlook : v.Vals.lookup f with
  | some offset =>
    have hlt : offset < v.stores.length := hidx f offset hlook
    obtain ⟨l, hl⟩ := hmaps _ (List.getElem_mem hlt)
    have hget : v.stores[offset]? = some (TransitionScoreStore.map l) := by
      rw [List.getElem?_eq_getElem hlt, hl]
    simp only [hget, TransitionScoreStore.Add]
    refine ⟨_, rfl, hdense, ?_, ?_⟩
    · intro s hs
      rcases List.mem_or_eq_of_mem_set hs with h | h
      · exact hmaps s h
      · exact ⟨_, h⟩
    · intro f1 o h
      simp only [List.length_set]
      exact hidx f1 o h
  | none =>
    simp only [hdense, Bool.false_eq_true, if_false, TransitionScoreStore.Init,
      TransitionScoreStore.SetValue]
    refine ⟨_, rfl, rfl, ?_, ?_⟩
    · intro s hs
      simp only [List.mem_append, List.mem_singleton] at hs
      rcases hs with h | h
      · exact hmaps s h
      · exact ⟨_, h⟩
    · intro f1 o h
      simp only [mapSet, hlook, lookup_append_entry] at h
      simp only [List.length_append, List.length_singleton]
      cases h1 : v.Vals.lookup f1 with
      | some y =>
        simp only [h1, Option.some.injEq] at h
        have := hidx f1 y h1
        omega
      | none =>
        simp only [h1] at h
        by_cases hb : (f1 == f) = true
        · simp only [hb, if_true, Option.some.injEq] at h
          omega
        · simp [hb] at h

theorem sparseInv_Adds (calls : List AvgSparse.AddCall) (v : AvgSparse) (hinv : sparseInv v) :
    ∃ v1, AvgSparse.Adds v calls = some v1 ∧ sparseInv v1 := by
  induction calls generalizing v with
  | nil => exact ⟨v, rfl, hinv⟩
  | cons c rest ih =>
    obtain ⟨g, t, f, d⟩ := c
    obtain ⟨v1, hv1, hinv1⟩ := sparseInv_Add v g t f d hinv
    obtain ⟨v2, hv2, hinv2⟩ := ih v1 hinv1
    exact ⟨v2, by simp only [AvgSparse.Adds, hv1, hv2], hinv2⟩

/-! ### C4: scalar division -/

theorem LockedMap.eachLoop_divide (d : Int) (vals : List (Nat × HistoryValue)) :
    LockedMap.eachLoop (AvgSparse.divideCell d) vals () =
      some (vals.map fun e => (e.1, dividedCell d e.2), ()) := by
  induction vals with
  | nil => rfl
  | cons e rest ih =>
    obtain ⟨i, hist⟩ := e
    simp only [LockedMap.eachLoop, AvgSparse.divideCell, ih, List.map_cons, dividedCell]

theorem rangeStores_divide (d : Int) (stores : List TransitionScoreStore)
    (hmaps : ∀ s ∈ stores, ∃ l, s = TransitionScoreStore.map l) :
    rangeStores (fun val => (val.Each (AvgSparse.divideCell d) ()).map Prod.fst) stores =
      some (stores.map (dividedStore d)) := by
  induction stores with
  | nil => rfl
  | cons s rest ih =>
    obtain ⟨l, hl⟩ := hmaps s (List.mem_cons_self _ _)
    have hrest := ih fun s1 hs1 => hmaps s1 (List.mem_cons_of_mem _ hs1)
    subst hl
    have hhead : ((TransitionScoreStore.map l).Each (AvgSparse.divideCell d) ()).map Prod.fst =
        some (dividedStore d (TransitionScoreStore.map l)) := by
      simp only [TransitionScoreStore.Each, LockedMap.Each, LockedMap.eachLoop_divide,
        Option.map_some', dividedStore]
    simp only [rangeStores, hhead, hrest, List.map_cons]

theorem UpdateScalarDivide_sparse (v : AvgSparse) (d : Int) (hd : d ≠ 0) (hinv : sparseInv v) :
    v.UpdateScalarDivide d = some { v with stores := v.stores.map (dividedStore d) } := by
  simp only [AvgSparse.UpdateScalarDivide, hd, if_false, rangeStores_divide d v.stores hinv.2.1]

theorem Value_divided (v : AvgSparse) (d : Int) (t : Nat) (f : Feature) (o : Nat)
    (hinv : sparseInv v) (hlook : v.Vals.lookup f = some o) :
    ∃ x, v.Value t f = some x ∧
      AvgSparse.Value { v with stores := v.stores.map (dividedStore d) } t f =
        some (x.tdiv d) := by
  obtain ⟨_, hmaps, hidx⟩ := hinv
  have hlt : o < v.stores.length := hidx f o hlook
  obtain ⟨l, hl⟩ := hmaps _ (List.getElem_mem hlt)
  have hget : v.stores[o]? = some (TransitionScoreStore.map l) := by
    rw [List.getElem?_eq_getElem hlt, hl]
  have hget1 : (v.stores.map (dividedStore d))[o]? =
      some (TransitionScoreStore.map
        { Vals := l.Vals.map fun e => (e.1, dividedCell d e.2) }) := by
    rw [List.getElem?_map, hget]
    rfl
  simp only [AvgSparse.Value, hlook, Option.getD_some, Option.isSome_some, hget, hget1,
    if_true, TransitionScoreStore.Len, LockedMap.Len, List.length_map,
    TransitionScoreStore.GetValue, LockedMap.GetValue, lookup_map_snd]
  by_cases ht : t < l.Vals.length
  · simp only [ht, if_true]
    cases hcell : l.Vals.lookup t with
    | some hv => exact ⟨hv.Value, rfl, rfl⟩
    | none => exact ⟨0, rfl, by simp⟩
  · simp only [ht, if_false]
    exact ⟨0, rfl, by simp⟩

/-- C4 (as amended): on the sparse flavour, for every instance built by Adds from
`MakeAvgSparse(false)` and every divisor `d ≠ 0`, `UpdateScalarDivide(d)` completes,
and afterwards `Value(t, f)` is the previous `Value(t, f)` divided by `d` with the
quotient rounded toward zero, for every feature `f` of the index and every
transition `t`. -/
theorem scalar_divide_truncates (calls : List AvgSparse.AddCall) (d : Int) (hd : d ≠ 0) :
    ∃ v w, AvgSparse.Adds (MakeAvgSparse false) calls = some v ∧
      v.UpdateScalarDivide d = some w ∧
      ∀ t f, f ∈ mapKeys v.Vals →
        ∃ x, v.Value t f = some x ∧ w.Value t f = some (x.tdiv d) := by
  obtain ⟨v, hv, hinv⟩ := sparseInv_Adds calls (MakeAvgSparse false) sparseInv_Make
  refine ⟨v, _, hv, UpdateScalarDivide_sparse v d hd hinv, ?_⟩
  intro t f hf
  obtain ⟨o, ho⟩ := lookup_isSome_of_mem_keys v.Vals f hf
  exact Value_divided v d t f o hinv ho

/-- C4, an instance of the amended law: the sparse instance after `Add(1, 0, "A", 7)`,
divided by 2. -/
theorem scalar_divide_truncates_witness :
    (2 : Int) ≠ 0 ∧
      ∃ v w, AvgSparse.Adds (MakeAvgSparse false) [(1, 0, Feature.str "A", 7)] = some v ∧
        v.UpdateScalarDivide 2 = some w ∧
        ∀ t f, f ∈ mapKeys v.Vals →
          ∃ x, v.Value t f = some x ∧ w.Value t f = some (x.tdiv 2) :=
  ⟨by decide, scalar_divide_truncates [(1, 0, Feature.str "A", 7)] 2 (by decide)⟩

/-- C4 as stated fails: on a sparse instance after `Add(1, 0, "A", -3)`, `Value(0, "A")`
is -3, and after `UpdateScalarDivide(2)` it is -1, whereas the floor of -3/2 is -2.
On a dense instance after `Add(1, 0, "A", 6)` the value stays 6, the division being
applied to a copy of the cell. -/
theorem scalar_divide_is_not_floor :
    (AvgSparse.Adds (MakeAvgSparse false) [(1, 0, Feature.str "A", -3)]).bind
        (fun v => v.Value 0 (Feature.str "A")) = some (-3) ∧
      ((AvgSparse.Adds (MakeAvgSparse false) [(1, 0, Feature.str "A", -3)]).bind
        fun v => (v.UpdateScalarDivide 2).bind fun w => w.Value 0 (Feature.str "A")) =
        some (-1) ∧
      Int.fdiv (-3) 2 = -2 ∧
      ((AvgSparse.Adds (MakeAvgSparse true) [(1, 0, Feature.str "A", 6)]).bind
        fun v => (v.UpdateScalarDivide 2).bind fun w => w.Value 0 (Feature.str "A")) =
        some 6 := by
  decide

/-! ### C2: `Value` after Adds -/

/-- C2 at two failing inputs.  Dense: after `Add(1, 0, "A", 1)` twice (scenario S3),
`Value(0, "A")` is 1 and not 2, the cell `AvgSparse.Add` stores through `SetValue` being
left with `IsSet = false`, so that the next store `Add` overwrites it.  Sparse: after
`Add(1, 50, "B", 7)`, `Value(50, "B")` is 0 and not 7, `Value` comparing the transition
with the number of keys of the map. -/
theorem value_is_not_sum_of_increments :
    (AvgSparse.Adds (MakeAvgSparse true)
        [(1, 0, Feature.str "A", 1), (1, 0, Feature.str "A", 1)]).bind
        (fun v => v.Value 0 (Feature.str "A")) = some 1 ∧
      (AvgSparse.Adds (MakeAvgSparse false) [(1, 50, Feature.str "B", 7)]).bind
        (fun v => v.Value 50 (Feature.str "B")) = some 0 := by
  decide

/-! ### C3: serialize, then deserialize -/

/-- C3 at a failing input, for both flavours.  After `Add(1, 0, "A", 3)`,
`Value(0, "A")` is 3 and `Serialize` returns the single entry `0 ↦ [3]`, filed under the
offset of the store; after `Deserialize` of that payload at generation 1 into a fresh
instance, `Value(0, "A")` is 0. -/
theorem round_trip_loses_values :
    (AvgSparse.Adds (MakeAvgSparse true) [(1, 0, Feature.str "A", 3)]).bind
        (fun v => v.Value 0 (Feature.str "A")) = some 3 ∧
      (AvgSparse.Adds (MakeAvgSparse true) [(1, 0, Feature.str "A", 3)]).bind
        AvgSparse.Serialize = some [(Feature.int 0, [3])] ∧
      ((MakeAvgSparse true).Deserialize [(Feature.int 0, [3])] 1).bind
        (fun w => w.Value 0 (Feature.str "A")) = some 0 ∧
      (AvgSparse.Adds (MakeAvgSparse false) [(1, 0, Feature.str "A", 3)]).bind
        (fun v => v.Value 0 (Feature.str "A")) = some 3 ∧
      (AvgSparse.Adds (MakeAvgSparse false) [(1, 0, Feature.str "A", 3)]).bind
        AvgSparse.Serialize = some [(Feature.int 0, [3])] ∧
      ((MakeAvgSparse false).Deserialize [(Feature.int 0, [3])] 1).bind
        (fun w => w.Value 0 (Feature.str "A")) = some 0 := by
  decide

/-! ### C5: `Integrate` -/

/-- C5 at a failing input.  On a dense instance, `Add(1, 0, "A", 3)` twice leave the
set cell `(Generation 1, Value 3, Total 0)`, whose `IntegratedValue(4)` is 9;
`Integrate(4)` completes and leaves the instance as it was, the cell still holding 3:
`LockedArray.Integrate` integrates a copy of each element. -/
theorem dense_Integrate_changes_nothing :
    (AvgSparse.Adds (MakeAvgSparse true)
        [(1, 0, Feature.str "A", 3), (1, 0, Feature.str "A", 3)]).map (fun v => v.stores) =
        some [TransitionScoreStore.array { Data :=
          [{ Generation := 1, PrevGeneration := 0, Value := 3, Total := 0, IsSet := true }] }] ∧
      HistoryValue.IntegratedValue
        { Generation := 1, PrevGeneration := 0, Value := 3, Total := 0, IsSet := true } 4 = 9 ∧
      ((AvgSparse.Adds (MakeAvgSparse true)
        [(1, 0, Feature.str "A", 3), (1, 0, Feature.str "A", 3)]).bind
        fun v => v.Integrate 4) =
        AvgSparse.Adds (MakeAvgSparse true)
          [(1, 0, Feature.str "A", 3), (1, 0, Feature.str "A", 3)] := by
  decide

/-! ### C6: lookup misses -/

/-- C6 at a failing input: on the instance `MakeAvgSparse` returns, dense or sparse,
`Value(0, "A")` does not return: the offset read for the missing key is 0 and
`v.stores[0]` is out of range. -/
theorem Value_fails_on_empty :
    (MakeAvgSparse true).Value 0 (Feature.str "A") = none ∧
      (MakeAvgSparse false).Value 0 (Feature.str "A") = none := by
  decide

/-! ### C7: the keys of `Serialize` -/

/-- C7 at a failing input: after `Add(1, 0, "A", 3)` the index has the single key "A",
and the mapping `Serialize` returns has the single key `0` (an `int`), the position of
the store in `stores`. -/
theorem Serialize_keys_are_offsets :
    (AvgSparse.Adds (MakeAvgSparse true) [(1, 0, Feature.str "A", 3)]).map
        (fun v => mapKeys v.Vals) = some [Feature.str "A"] ∧
      ((AvgSparse.Adds (MakeAvgSparse true) [(1, 0, Feature.str "A", 3)]).bind
        AvgSparse.Serialize).map mapKeys = some [Feature.int 0] := by
  decide

/-! ### C8: `Serialize` on the sparse flavour -/

/-- C8 at a failing input: on a sparse instance after `Add(1, 50, "B", 7)` the store
has one key, so `scores` has length 1, and `scores[50] = ...` is out of range:
`Serialize` does not return. -/
theorem sparse_Serialize_fails :
    (AvgSparse.Adds (MakeAvgSparse false) [(1, 50, Feature.str "B", 7)]).map
        (fun v => v.stores) =
        some [TransitionScoreStore.map { Vals := [(50, NewHistoryValue 1 7)] }] ∧
      (AvgSparse.Adds (MakeAvgSparse false) [(1, 50, Feature.str "B", 7)]).bind
        AvgSparse.Serialize = none := by
  decide

/-! ### C9: the cells `Deserialize` writes -/

/-- C9 at a failing input (scenario S6): `Deserialize` of `"Z" ↦ [3, 0, 5]` at generation
10 into a dense instance leaves the store of "Z" with the cells `0, 0, 5`: `Value(0, "Z")`
is 0 and not 3, every `SetValue` restarting from the zero buffer `arrayData`. -/
theorem dense_Deserialize_drops_elements :
    ((MakeAvgSparse true).Deserialize [(Feature.str "Z", [3, 0, 5])] 10).bind
        (fun w => w.Value 0 (Feature.str "Z")) = some 0 ∧
      ((MakeAvgSparse true).Deserialize [(Feature.str "Z", [3, 0, 5])] 10).bind
        (fun w => w.Value 2 (Feature.str "Z")) = some 5 := by
  decide

/-! ### C10: the stores `Deserialize` builds -/

/-- C10 at a failing input, for both flavours: `Deserialize` of the one-key payload
`"Z" ↦ [3, 0, 5]` leaves 2 stores, the first of them `nil`, and one key in the index
(with offset 1); `Integrate`, `UpdateScalarDivide(2)` and `Serialize` on the result
all fail. -/
theorem Deserialize_leaves_nil_stores :
    ((MakeAvgSparse false).Deserialize [(Feature.str "Z", [3, 0, 5])] 10).map
        (fun w => (w.stores.length, w.stores.head?, w.Vals)) =
        some (2, some TransitionScoreStore.nil, [(Feature.str "Z", 1)]) ∧
      ((MakeAvgSparse false).Deserialize [(Feature.str "Z", [3, 0, 5])] 10).bind
        (fun w => w.Integrate 10) = none ∧
      ((MakeAvgSparse false).Deserialize [(Feature.str "Z", [3, 0, 5])] 10).bind
        (fun w => w.UpdateScalarDivide 2) = none ∧
      ((MakeAvgSparse false).Deserialize [(Feature.str "Z", [3, 0, 5])] 10).bind
        AvgSparse.Serialize = none ∧
      ((MakeAvgSparse true).Deserialize [(Feature.str "Z", [3, 0, 5])] 10).map
        (fun w => (w.stores.length, w.stores.head?, w.Vals)) =
        some (2, some TransitionScoreStore.nil, [(Feature.str "Z", 1)]) ∧
      ((MakeAvgSparse true).Deserialize [(Feature.str "Z", [3, 0, 5])] 10).bind
        (fun w => w.Integrate 10) = none ∧
      ((MakeAvgSparse true).Deserialize [(Feature.str "Z", [3, 0, 5])] 10).bind
        (fun w => w.UpdateScalarDivide 2) = none ∧
      ((MakeAvgSparse true).Deserialize [(Feature.str "Z", [3, 0, 5])] 10).bind
        AvgSparse.Serialize = none :=
  ⟨by decide, by decide, by decide, by decide, by decide, by decide, by decide, by decide⟩

/-! ### C11: two adds at one generation -/

theorem HistoryValue.Add_Generation (h : HistoryValue) (g d : Int) (hle : h.Generation ≤ g) :
    (h.Add g d).Generation = g := by
  unfold HistoryValue.Add
  by_cases h1 : h.PrevGeneration < h.Generation <;> by_cases h2 : h.Generation < g <;>
    simp [h1, h2] <;> omega

theorem HistoryValue.Add_Add_same (h : HistoryValue) (g a b : Int) (hle : h.Generation ≤ g) :
    (h.Add g a).Add g b = h.Add g (a + b) := by
  obtain ⟨gen, prev, val, tot, set⟩ := h
  simp only at hle
  unfold HistoryValue.Add
  by_cases h1 : prev < gen <;> by_cases h2 : gen < g
  · simp [h1, h2, add_assoc]
  · have heq : gen = g := le_antisymm hle (not_lt.mp h2)
    subst heq
    simp [h1, add_assoc]
  · simp [h1, h2, add_assoc]
  · have heq : gen = g := le_antisymm hle (not_lt.mp h2)
    subst heq
    simp [h1, add_assoc]

/-- C11: for every `HistoryValue` state `h`, every generation `g ≥ h.Generation` and all
amounts `a`, `b`, the state after `h.Add(g, a); h.Add(g, b)` and the state after
`h.Add(g, a + b)` have the same `Value` and the same `IntegratedValue(G)` for every
`G ≥ g` (the two states are in fact equal). -/
theorem same_generation_adds_commute (h : HistoryValue) (g a b : Int)
    (hle : h.Generation ≤ g) :
    (h.Add g a).Add g b = h.Add g (a + b) ∧
      ((h.Add g a).Add g b).Value = (h.Add g (a + b)).Value ∧
      ∀ G, g ≤ G →
        ((h.Add g a).Add g b).IntegratedValue G = (h.Add g (a + b)).IntegratedValue G := by
  have heq := HistoryValue.Add_Add_same h g a b hle
  exact ⟨heq, by rw [heq], fun G _ => by rw [heq]⟩

/-- C11, an instance: the cell `NewHistoryValue(1, 3)`, generation 4, amounts 2 and 5. -/
theorem same_generation_adds_commute_witness :
    (NewHistoryValue 1 3).Generation ≤ 4 ∧
      (((NewHistoryValue 1 3).Add 4 2).Add 4 5 = (NewHistoryValue 1 3).Add 4 (2 + 5) ∧
        (((NewHistoryValue 1 3).Add 4 2).Add 4 5).Value =
          ((NewHistoryValue 1 3).Add 4 (2 + 5)).Value ∧
        ∀ G, 4 ≤ G →
          (((NewHistoryValue 1 3).Add 4 2).Add 4 5).IntegratedValue G =
            ((NewHistoryValue 1 3).Add 4 (2 + 5)).IntegratedValue G) :=
  ⟨by decide, same_generation_adds_commute (NewHistoryValue 1 3) 4 2 5 (by decide)⟩

/-! ### C19: the guard and the first generation -/

theorem cellAdds_guard (adds : List (Int × Int)) (h : HistoryValue)
    (hguard : h.PrevGeneration < h.Generation)
    (hmono : List.Chain (· ≤ ·) h.Generation (adds.map Prod.fst)) (k : Nat) :
    (cellAdds h (adds.take k)).PrevGeneration < (cellAdds h (adds.take k)).Generation := by
  induction adds generalizing h k with
  | nil => simpa [cellAdds] using hguard
  | cons a rest ih =>
    cases k with
    | zero => simpa [cellAdds] using hguard
    | succ k =>
      simp only [List.map_cons, List.chain_cons] at hmono
      obtain ⟨hle, hrest⟩ := hmono
      obtain ⟨h1, h2, _, _⟩ := HistoryValue.Add_guard h a.1 a.2 hguard hle
      have := ih (h.Add a.1 a.2) h1 (by rw [h2]; exact hrest) k
      simpa [cellAdds] using this

/-- C19: a cell created by `NewHistoryValue(g1, d1)` with `g1 ≥ 1` and then updated by
`HistoryValue.Add(gi, di)` with `g1 ≤ g2 ≤ ... ≤ gn` satisfies the guard
`PrevGeneration < Generation` before each of these Adds (and after the last), and its
`IntegratedValue(G)` is the sum of `di * (G - gi)` for every `G`; whereas with `g1 = 0`,
`d1 = 3`, `g2 = 2`, `d2 = 0` the guard is false at the first Add, `Total` stays 0 and
`IntegratedValue(G)` differs from the sum at every `G`. -/
theorem guard_needs_positive_first_generation (g1 d1 : Int) (rest : List (Int × Int))
    (hpos : 1 ≤ g1) (hmono : List.Chain (· ≤ ·) g1 (rest.map Prod.fst)) :
    (∀ k, (cellAdds (NewHistoryValue g1 d1) (rest.take k)).PrevGeneration <
        (cellAdds (NewHistoryValue g1 d1) (rest.take k)).Generation) ∧
      (∀ G, (cellAdds (NewHistoryValue g1 d1) rest).IntegratedValue G =
        integralOf ((g1, d1) :: rest) G) ∧
      ¬ (NewHistoryValue 0 3).PrevGeneration < (NewHistoryValue 0 3).Generation ∧
      (cellAdds (NewHistoryValue 0 3) [(2, 0)]).Total = 0 ∧
      ∀ G, (cellAdds (NewHistoryValue 0 3) [(2, 0)]).IntegratedValue G ≠
        integralOf [(0, 3), (2, 0)] G := by
  have hguard : (NewHistoryValue g1 d1).PrevGeneration < (NewHistoryValue g1 d1).Generation := by
    show (0 : Int) < g1
    omega
  refine ⟨fun k => cellAdds_guard rest _ hguard hmono k, fun G => ?_, by decide, by decide,
    fun G => ?_⟩
  · rw [(cellAdds_integrated rest _ hguard hmono G).1]
    simp only [HistoryValue.IntegratedValue, NewHistoryValue, HistoryValue.zero, integralOf,
      List.map_cons, List.sum_cons]
    ring
  · have hcell : cellAdds (NewHistoryValue 0 3) [(2, 0)] =
        { Generation := 2, PrevGeneration := 0, Value := 3, Total := 0, IsSet := false } := by
      decide
    rw [hcell]
    simp only [HistoryValue.IntegratedValue, integralOf, List.map_cons, List.map_nil,
      List.sum_cons, List.sum_nil]
    omega

/-- C19, an instance: first generation 1 with amount 3, then `Add(3, 2)` and
`Add(3, 4)`. -/
theorem guard_needs_positive_first_generation_witness :
    (1 : Int) ≤ 1 ∧
      List.Chain (· ≤ ·) (1 : Int) ([((3 : Int), (2 : Int)), (3, 4)].map Prod.fst) ∧
      ((∀ k, (cellAdds (NewHistoryValue 1 3) ([(3, 2), (3, 4)].take k)).PrevGeneration <
          (cellAdds (NewHistoryValue 1 3) ([(3, 2), (3, 4)].take k)).Generation) ∧
        (∀ G, (cellAdds (NewHistoryValue 1 3) [(3, 2), (3, 4)]).IntegratedValue G =
          integralOf ((1, 3) :: [(3, 2), (3, 4)]) G) ∧
        ¬ (NewHistoryValue 0 3).PrevGeneration < (NewHistoryValue 0 3).Generation ∧
        (cellAdds (NewHistoryValue 0 3) [(2, 0)]).Total = 0 ∧
        ∀ G, (cellAdds (NewHistoryValue 0 3) [(2, 0)]).IntegratedValue G ≠
          integralOf [(0, 3), (2, 0)] G) :=
  ⟨by decide, by simp,
    guard_needs_positive_first_generation 1 3 [(3, 2), (3, 4)] (by decide) (by simp)⟩

/-! ### C20: the bulk mutators on the dense flavour -/

theorem LockedArray.Integrate_eq (l : LockedArray) (g : Int) : l.Integrate g = l := by
  unfold LockedArray.Integrate
  generalize l.Data = data
  induction data with
  | nil => rfl
  | cons v rest ih =>
    rw [List.foldl_cons]
    exact ih

theorem LockedArray.dense_eachLoop_divide (d : Int) (data : List HistoryValue) (i : Nat) :
    LockedArray.eachLoop (AvgSparse.divideCell d) i data () = some () := by
  induction data generalizing i with
  | nil => rfl
  | cons hist rest ih => simp only [LockedArray.eachLoop, AvgSparse.divideCell, ih]

theorem LockedArray.Each_divide (d : Int) (l : LockedArray) :
    l.Each (AvgSparse.divideCell d) () = some (l, ()) := by
  simp only [LockedArray.Each, LockedArray.dense_eachLoop_divide]

theorem rangeStores_fixed (f : TransitionScoreStore → Option TransitionScoreStore)
    (stores : List TransitionScoreStore) (hf : ∀ s ∈ stores, f s = some s) :
    rangeStores f stores = some stores := by
  induction stores with
  | nil => rfl
  | cons s rest ih =>
    have hrest := ih fun s1 hs1 => hf s1 (List.mem_cons_of_mem _ hs1)
    simp only [rangeStores, hf s (List.mem_cons_self _ _), hrest]

/-- C20: on an `AvgSparse` whose stores are all `LockedArray`, for every generation `g`
and every divisor `d ≠ 0`, `Integrate(g)` and `UpdateScalarDivide(d)` both complete and
leave the instance (every slot of every store, and the index) exactly as it was. -/
theorem dense_bulk_mutators_change_nothing (v : AvgSparse) (g d : Int)
    (hdense : ∀ s ∈ v.stores, ∃ l, s = TransitionScoreStore.array l) (hd : d ≠ 0) :
    v.Integrate g = some v ∧ v.UpdateScalarDivide d = some v := by
  constructor
  · have hfix : rangeStores (fun val => val.Integrate g) v.stores = some v.stores := by
      apply rangeStores_fixed
      intro s hs
      obtain ⟨l, rfl⟩ := hdense s hs
      simp only [TransitionScoreStore.Integrate, LockedArray.Integrate_eq]
    simp only [AvgSparse.Integrate, hfix]
  · have hfix : rangeStores
        (fun val => (val.Each (AvgSparse.divideCell d) ()).map Prod.fst) v.stores =
        some v.stores := by
      apply rangeStores_fixed
      intro s hs
      obtain ⟨l, rfl⟩ := hdense s hs
      simp only [TransitionScoreStore.Each, LockedArray.Each_divide, Option.map_some']
    simp only [AvgSparse.UpdateScalarDivide, hd, if_false, hfix]

/-- C20, an instance: the dense instance holding the set cell `(Generation 1, Value 6)`
for "A", with `g = 4` and `d = 2`. -/
theorem dense_bulk_mutators_change_nothing_witness :
    (∀ s ∈ [TransitionScoreStore.array { Data := [LockedArray.literal 1 6] }],
        ∃ l, s = TransitionScoreStore.array l) ∧
      (2 : Int) ≠ 0 ∧
      (AvgSparse.Integrate
          { Dense := true,
            stores := [TransitionScoreStore.array { Data := [LockedArray.literal 1 6] }],
            Vals := [(Feature.str "A", 0)] } 4 =
          some
            { Dense := true,
              stores := [TransitionScoreStore.array { Data := [LockedArray.literal 1 6] }],
              Vals := [(Feature.str "A", 0)] } ∧
        AvgSparse.UpdateScalarDivide
          { Dense := true,
            stores := [TransitionScoreStore.array { Data := [LockedArray.literal 1 6] }],
            Vals := [(Feature.str "A", 0)] } 2 =
          some
            { Dense := true,
              stores := [TransitionScoreStore.array { Data := [LockedArray.literal 1 6] }],
              Vals := [(Feature.str "A", 0)] }) :=
  ⟨by simp, by decide,
    dense_bulk_mutators_change_nothing
      { Dense := true,
        stores := [TransitionScoreStore.array { Data := [LockedArray.literal 1 6] }],
        Vals := [(Feature.str "A", 0)] } 4 2 (by simp) (by decide)⟩

/-! ### C14: growth of the dense store -/

/-- C14 at a failing input: the dense store that `Add(1, 0, "A", 3)` makes of the empty
one has length 1 and holds the set cell `(Generation 1, Value 3)` in slot 0; after
`Add(1, 1, "A", 2)` it has length 2, and slot 0 is the zero value: `ExtendFor` has
restarted from the zero buffer `arrayData` instead of copying the cell. -/
theorem dense_growth_drops_cells :
    LockedArray.Add { Data := [] } 1 0 (Feature.str "A") 3 =
        some { Data := [LockedArray.literal 1 3] } ∧
      LockedArray.Add { Data := [LockedArray.literal 1 3] } 1 1 (Feature.str "A") 2 =
        some { Data := [HistoryValue.zero, LockedArray.literal 1 2] } ∧
      LockedArray.literal 1 3 ≠ HistoryValue.zero := by
  decide

/-! ### C15: `SetValue` -/

/-- C15 at three failing inputs on the dense store.  The store `[c0, c1]` of two set
cells is what `Add(1, 1, "A", 4)` then `Add(1, 0, "A", 3)` make of the empty store.  On
it, `SetValue(0, hv)` leaves the one-slot store `[hv]` (`Len` 1, not 2, and slot 1 is
gone), and `SetValue(1, hv)` leaves `[zero, hv]` (slot 0 is wiped).  On the store of
length 96 that `Add(1, 95, "A", 7)` makes of the empty one, `SetValue(94, hv)` fails:
`newVals[0:96]` is out of range for a `newVals` of length 95. -/
theorem dense_SetValue_is_not_a_point_write :
    ((LockedArray.Add { Data := [] } 1 1 (Feature.str "A") 4).bind
        fun l => l.Add 1 0 (Feature.str "A") 3) =
        some { Data := [LockedArray.literal 1 3, LockedArray.literal 1 4] } ∧
      LockedArray.SetValue { Data := [LockedArray.literal 1 3, LockedArray.literal 1 4] } 0
          (NewHistoryValue 5 9) =
        some { Data := [NewHistoryValue 5 9] } ∧
      LockedArray.SetValue { Data := [LockedArray.literal 1 3, LockedArray.literal 1 4] } 1
          (NewHistoryValue 5 9) =
        some { Data := [HistoryValue.zero, NewHistoryValue 5 9] } ∧
      (LockedArray.Add { Data := [] } 1 95 (Feature.str "A") 7).map LockedArray.Len =
        some 96 ∧
      ((LockedArray.Add { Data := [] } 1 95 (Feature.str "A") 7).bind
        fun l => l.SetValue 94 (NewHistoryValue 5 9)) = none :=
  ⟨by decide, by decide, by decide, by decide, by decide⟩

/-! ### C16: the slot a store `Add` writes -/

theorem LockedArray.getElem?_lt {data : List HistoryValue} {t : Nat} {cell : HistoryValue}
    (hcell : data[t]? = some cell) : t < data.length := by
  by_contra hge
  rw [List.getElem?_eq_none (not_lt.mp hge)] at hcell
  exact Option.noConfusion hcell

theorem LockedArray.getElem?_ge {data : List HistoryValue} {t : Nat}
    (hcell : data[t]? = none) : data.length ≤ t := by
  by_contra hlt
  rw [List.getElem?_eq_getElem (not_le.mp hlt)] at hcell
  exact Option.noConfusion hcell

theorem LockedArray.dense_Add_slot (l : LockedArray) (g : Int) (t : Nat) (f : Feature) (d : Int) :
    ∃ l1, l.Add g t f d = some l1 ∧
      l1.GetValue t = some
        (match l.Data[t]? with
          | some cell => if cell.IsSet then cell.Add g d else LockedArray.literal g d
          | none => LockedArray.literal g d) := by
  cases hcell : l.Data[t]? with
  | some cell =>
    have hlt : t < l.Data.length := LockedArray.getElem?_lt hcell
    by_cases hset : cell.IsSet = true
    · refine ⟨{ Data := l.Data.set t (cell.Add g d) }, ?_, ?_⟩
      · simp [LockedArray.Add, hcell, hset]
      · simp [LockedArray.GetValue, List.getElem?_set, hlt, hset]
    · refine ⟨{ Data := l.Data.set t (LockedArray.literal g d) }, ?_, ?_⟩
      · simp [LockedArray.Add, hcell, hset]
      · simp [LockedArray.GetValue, List.getElem?_set, hlt, hset]
  | none =>
    obtain ⟨l1, hl1, hlen⟩ := LockedArray.ExtendFor_of_le l g t (LockedArray.getElem?_ge hcell)
    have hnot : ¬ l1.Data.length ≤ t := by omega
    refine ⟨{ Data := l1.Data.set t (LockedArray.literal g d) }, ?_, ?_⟩
    · simp [LockedArray.Add, hcell, hl1, hnot]
    · simp [LockedArray.GetValue, List.getElem?_set, hlen]

theorem LockedMap.sparse_Add_slot (l : LockedMap) (g : Int) (t : Nat) (f : Feature) (d : Int) :
    (l.Add g t f d).GetValue t = some
      (match l.Vals.lookup t with
        | some cell => cell.Add g d
        | none => NewHistoryValue g d) := by
  cases hcell : l.Vals.lookup t with
  | some cell => simp only [LockedMap.Add, hcell, LockedMap.GetValue, lookup_mapSet_self]
  | none => simp only [LockedMap.Add, hcell, LockedMap.GetValue, lookup_mapSet_self]

/-- What a store `Add(g, t, f, d)` does to slot `t`; it never fails.  Dense store: the
slot becomes the literal `(Value d, Generation g, IsSet true)` if it was absent or unset,
and otherwise `HistoryValue.Add(g, d)` of its previous contents.  Sparse store: the slot
becomes `NewHistoryValue(g, d)`, whose `IsSet` is false, if the key was absent, and
otherwise `HistoryValue.Add(g, d)` of its previous contents.  The feature argument is
not used by either. -/
theorem store_Add_upserts (g : Int) (t : Nat) (f : Feature) (d : Int) :
    (∀ l : LockedArray, ∃ l1, l.Add g t f d = some l1 ∧
        l1.GetValue t = some
          (match l.Data[t]? with
            | some cell =>
              if cell.IsSet then cell.Add g d
              else { Generation := g, PrevGeneration := 0, Value := d, Total := 0,
                     IsSet := true }
            | none =>
              { Generation := g, PrevGeneration := 0, Value := d, Total := 0,
                IsSet := true })) ∧
      (∀ l : LockedMap, (l.Add g t f d).GetValue t = some
          (match l.Vals.lookup t with
            | some cell => cell.Add g d
            | none =>
              { Generation := g, PrevGeneration := 0, Value := d, Total := 0,
                IsSet := false })) ∧
      (∀ (l : LockedArray) (f1 : Feature), l.Add g t f1 d = l.Add g t f d) ∧
      ∀ (l : LockedMap) (f1 : Feature), l.Add g t f1 d = l.Add g t f d :=
  ⟨fun l => LockedArray.dense_Add_slot l g t f d, fun l => LockedMap.sparse_Add_slot l g t f d,
    fun _ _ => rfl, fun _ _ => rfl⟩

/-- C16 at a failing input: on the empty sparse store, `Add(1, 0, "A", 3)` creates the
cell `(Value 3, Generation 1, Total 0, PrevGeneration 0)` with `IsSet = false`, where the
claim has `is_set=true`; the dense store, on the same call, creates it with
`IsSet = true`. -/
theorem sparse_Add_leaves_IsSet_false :
    ((TransitionScoreStore.map { Vals := [] }).Add 1 0 (Feature.str "A") 3).bind
        (fun s => s.GetValue 0) =
        some (some
          { Generation := 1, PrevGeneration := 0, Value := 3, Total := 0, IsSet := false }) ∧
      ((TransitionScoreStore.array { Data := [] }).Add 1 0 (Feature.str "A") 3).bind
        (fun s => s.GetValue 0) =
        some (some
          { Generation := 1, PrevGeneration := 0, Value := 3, Total := 0, IsSet := true }) := by
  decide

/-! ### `AvgSparse.Add`, case by case -/

theorem store_Add_total (s : TransitionScoreStore) (g : Int) (t : Nat) (f : Feature) (d : Int)
    (hs : s ≠ TransitionScoreStore.nil) :
    ∃ s1, s.Add g t f d = some s1 ∧ s1 ≠ TransitionScoreStore.nil := by
  cases s with
  | nil => exact absurd rfl hs
  | array l =>
    obtain ⟨l1, hl1, _⟩ := LockedArray.dense_Add_slot l g t f d
    exact ⟨TransitionScoreStore.array l1, by simp [TransitionScoreStore.Add, hl1], by simp⟩
  | map l => exact ⟨_, rfl, by simp⟩

theorem LockedArray.SetValue_total (l : LockedArray) (i : Nat) (hv : HistoryValue)
    (hP : i < 94 ∨ l.Data.length ≤ i + 1) :
    ∃ l1, l.SetValue i hv = some l1 ∧ l1.Data.length = i + 1 := by
  have hext : ∃ l0, l.ExtendFor hv.Generation i = some l0 ∧ l0.Data.length = i + 1 := by
    unfold LockedArray.ExtendFor
    have h94 : LockedArray.arrayData.length = 94 := by simp [LockedArray.arrayData]
    by_cases ht : i < LockedArray.arrayData.length
    · have hmin : min (i + 1) LockedArray.arrayData.length = i + 1 := by omega
      simp only [ht, if_true, List.length_take, List.length_replicate, hmin, le_refl]
      exact ⟨_, rfl, by simp [List.length_take, hmin]⟩
    · have hle : l.Data.length ≤ i + 1 := by omega
      simp only [ht, if_false, List.length_replicate, hle, if_true]
      exact ⟨_, rfl, by simp; omega⟩
  obtain ⟨l0, hl0, hlen⟩ := hext
  have hlt : i < l0.Data.length := by omega
  exact ⟨{ Data := l0.Data.set i hv }, by simp [LockedArray.SetValue, hl0, hlt], by simp [hlen]⟩

theorem AvgSparse.Add_known (v : AvgSparse) (g : Int) (t : Nat) (f : Feature) (d : Int)
    (o : Nat) (s s1 : TransitionScoreStore) (hlook : v.Vals.lookup f = some o)
    (hget : v.stores[o]? = some s) (hadd : s.Add g t f d = some s1) :
    v.Add g t f d = some { v with stores := v.stores.set o s1 } := by
  simp only [AvgSparse.Add, hlook, hget, hadd]

theorem AvgSparse.Add_new (v : AvgSparse) (g : Int) (t : Nat) (f : Feature) (d : Int)
    (hlook : v.Vals.lookup f = none) :
    ∃ s2, s2 ≠ TransitionScoreStore.nil ∧
      v.Add g t f d =
        some { v with Vals := v.Vals ++ [(f, v.stores.length)], stores := v.stores ++ [s2] } := by
  cases hdense : v.Dense with
  | true =>
    obtain ⟨l1, hl1, _⟩ := LockedArray.SetValue_total { Data := [] } t (NewHistoryValue g d)
      (Or.inr (Nat.zero_le _))
    refine ⟨TransitionScoreStore.array l1, by simp, ?_⟩
    have hinit : LockedArray.Init { Data := List.replicate (t + 1) HistoryValue.zero } =
        { Data := [] } := rfl
    simp [AvgSparse.Add, hlook, hdense, TransitionScoreStore.Init, TransitionScoreStore.SetValue,
      hinit, hl1, mapSet]
  | false =>
    refine ⟨TransitionScoreStore.map
      (LockedMap.SetValue (LockedMap.Init { Vals := [] }) t (NewHistoryValue g d)), by simp, ?_⟩
    simp [AvgSparse.Add, hlook, hdense, TransitionScoreStore.Init, TransitionScoreStore.SetValue,
      mapSet]

/-! ### Instances built by Adds, either flavour -/

theorem addsInv_Make (dense : Bool) : addsInv (MakeAvgSparse dense) := by
  refine ⟨?_, ?_, ?_⟩
  · intro s hs
    simp [MakeAvgSparse] at hs
  · intro f o h
    simp [MakeAvgSparse, List.lookup] at h
  · intro f f1 o h
    simp [MakeAvgSparse, List.lookup] at h

theorem lookup_append_new {α : Type} (m : List (Feature × α)) (k k1 : Feature) (x y : α)
    (h : (m ++ [(k, x)]).lookup k1 = some y) :
    m.lookup k1 = some y ∨ (m.lookup k1 = none ∧ k1 = k ∧ y = x) := by
  rw [lookup_append_entry] at h
  cases h1 : m.lookup k1 with
  | some z =>
    simp only [h1] at h
    exact Or.inl h
  | none =>
    simp only [h1] at h
    by_cases hb : (k1 == k) = true
    · simp only [hb, if_true, Option.some.injEq] at h
      exact Or.inr ⟨rfl, by simpa using hb, h.symm⟩
    · simp [hb] at h

theorem addsInv_Add (v : AvgSparse) (g : Int) (t : Nat) (f : Feature) (d : Int)
    (hinv : addsInv v) : ∃ v1, v.Add g t f d = some v1 ∧ addsInv v1 := by
  obtain ⟨hnil, hidx, hinj⟩ := hinv
  cases hlook : v.Vals.lookup f with
  | some o =>
    have hlt : o < v.stores.length := hidx f o hlook
    have hget : v.stores[o]? = some v.stores[o] := List.getElem?_eq_getElem hlt
    obtain ⟨s1, hs1, hne⟩ := store_Add_total v.stores[o] g t f d (hnil _ (List.getElem_mem hlt))
    refine ⟨_, AvgSparse.Add_known v g t f d o _ s1 hlook hget hs1, ?_, ?_, ?_⟩
    · intro s hs
      rcases List.mem_or_eq_of_mem_set hs with h | h
      · exact hnil s h
      · rw [h]; exact hne
    · intro f1 o1 h
      simp only [List.length_set]
      exact hidx f1 o1 h
    · exact hinj
  | none =>
    obtain ⟨s2, hne, hadd⟩ := AvgSparse.Add_new v g t f d hlook
    refine ⟨_, hadd, ?_, ?_, ?_⟩
    · intro s hs
      simp only [List.mem_append, List.mem_singleton] at hs
      rcases hs with h | h
      · exact hnil s h
      · rw [h]; exact hne
    · intro f1 o1 h
      simp only [List.length_append, List.length_singleton]
      rcases lookup_append_new _ _ _ _ _ h with h1 | ⟨_, _, h1⟩
      · have := hidx f1 o1 h1
        omega
      · omega
    · intro f1 f2 o1 h1 h2
      rcases lookup_append_new _ _ _ _ _ h1 with h3 | ⟨_, h3, h4⟩
      · rcases lookup_append_new _ _ _ _ _ h2 with h5 | ⟨_, _, h6⟩
        · exact hinj f1 f2 o1 h3 h5
        · have := hidx f1 o1 h3
          omega
      · rcases lookup_append_new _ _ _ _ _ h2 with h5 | ⟨_, h6, _⟩
        · have := hidx f2 o1 h5
          omega
        · rw [h3, h6]

theorem addsInv_Adds (calls : List AvgSparse.AddCall) (v : AvgSparse) (hinv : addsInv v) :
    ∃ v1, AvgSparse.Adds v calls = some v1 ∧ addsInv v1 := by
  induction calls generalizing v with
  | nil => exact ⟨v, rfl, hinv⟩
  | cons c rest ih =>
    obtain ⟨g, t, f, d⟩ := c
    obtain ⟨v1, hv1, hinv1⟩ := addsInv_Add v g t f d hinv
    obtain ⟨v2, hv2, hinv2⟩ := ih v1 hinv1
    exact ⟨v2, by simp only [AvgSparse.Adds, hv1, hv2], hinv2⟩

/-! ### C12: offsets are append-only -/

/-- C12: in every `AvgSparse` built by Adds from `MakeAvgSparse` (a state every such
sequence reaches), for every feature `f` with `index[f] = k` and every further call
`Add(g, t, f1, d)`: the call completes, afterwards `index[f]` is still `k`, and
`stores[k]` is what it was when `f1 ≠ f`, and is the previous `stores[k]` after its own
`Add(g, t, f, d)` when `f1 = f`. -/
theorem offsets_are_append_only (dense : Bool) (calls : List AvgSparse.AddCall) (g : Int)
    (t : Nat) (f1 : Feature) (d : Int) :
    ∃ v, AvgSparse.Adds (MakeAvgSparse dense) calls = some v ∧
      ∀ f k, v.Vals.lookup f = some k →
        ∃ v1, v.Add g t f1 d = some v1 ∧ v1.Vals.lookup f = some k ∧
          (f1 ≠ f → v1.stores[k]? = v.stores[k]?) ∧
          (f1 = f → ∃ s s1, v.stores[k]? = some s ∧ s.Add g t f d = some s1 ∧
            v1.stores[k]? = some s1) := by
  obtain ⟨v, hv, hnil, hidx, hinj⟩ := addsInv_Adds calls (MakeAvgSparse dense) (addsInv_Make dense)
  refine ⟨v, hv, ?_⟩
  intro f k hk
  have hklt : k < v.stores.length := hidx f k hk
  cases hlook : v.Vals.lookup f1 with
  | some o =>
    have hlt : o < v.stores.length := hidx f1 o hlook
    have hget : v.stores[o]? = some v.stores[o] := List.getElem?_eq_getElem hlt
    obtain ⟨s1, hs1, _⟩ := store_Add_total v.stores[o] g t f1 d (hnil _ (List.getElem_mem hlt))
    refine ⟨_, AvgSparse.Add_known v g t f1 d o _ s1 hlook hget hs1, hk, ?_, ?_⟩
    · intro hne
      have hok : o ≠ k := fun h => hne (hinj f1 f k (h ▸ hlook) hk)
      simp only [List.getElem?_set_ne hok]
    · intro heq
      subst heq
      have hok : o = k := by
        rw [hlook] at hk
        exact Option.some.inj hk
      subst hok
      exact ⟨_, s1, hget, hs1, by simp [List.getElem?_set, hlt]⟩
  | none =>
    obtain ⟨s2, _, hadd⟩ := AvgSparse.Add_new v g t f1 d hlook
    refine ⟨_, hadd, ?_, ?_, ?_⟩
    · simp only [lookup_append_entry, hk]
    · intro _
      simp only [List.getElem?_append_left hklt]
    · intro heq
      subst heq
      rw [hlook] at hk
      exact Option.noConfusion hk

/-! ### C17: `UpdateScalarDivide` and the zero divisor -/

theorem rangeStores_total (f : TransitionScoreStore → Option TransitionScoreStore)
    (stores : List TransitionScoreStore) (hf : ∀ s ∈ stores, ∃ s1, f s = some s1) :
    ∃ r, rangeStores f stores = some r := by
  induction stores with
  | nil => exact ⟨[], rfl⟩
  | cons s rest ih =>
    obtain ⟨s1, hs1⟩ := hf s (List.mem_cons_self _ _)
    obtain ⟨r, hr⟩ := ih fun s2 hs2 => hf s2 (List.mem_cons_of_mem _ hs2)
    exact ⟨s1 :: r, by simp only [rangeStores, hs1, hr]⟩

theorem rangeStoresOutcome_of_some (f : TransitionScoreStore → Option TransitionScoreStore)
    (stores r : List TransitionScoreStore) (h : rangeStores f stores = some r) :
    rangeStoresOutcome f stores = (r, true) := by
  induction stores generalizing r with
  | nil =>
    simp only [rangeStores, Option.some.injEq] at h
    subst h
    rfl
  | cons s rest ih =>
    cases hs : f s with
    | none => simp [rangeStores, hs] at h
    | some s1 =>
      cases hrest : rangeStores f rest with
      | none => simp [rangeStores, hs, hrest] at h
      | some r1 =>
        simp only [rangeStores, hs, hrest, Option.some.injEq] at h
        subst h
        simp only [rangeStoresOutcome, hs, ih r1 hrest]

theorem divide_store_total (d : Int) (s : TransitionScoreStore)
    (hs : s ≠ TransitionScoreStore.nil) :
    ∃ s1, (s.Each (AvgSparse.divideCell d) ()).map Prod.fst = some s1 := by
  cases s with
  | nil => exact absurd rfl hs
  | array l =>
    exact ⟨TransitionScoreStore.array l, by
      simp only [TransitionScoreStore.Each, LockedArray.Each_divide, Option.map_some']⟩
  | map l =>
    exact ⟨dividedStore d (TransitionScoreStore.map l), by
      simp only [TransitionScoreStore.Each, LockedMap.Each, LockedMap.eachLoop_divide,
        Option.map_some', dividedStore]⟩

/-- C17: on every `AvgSparse` built by Adds from `MakeAvgSparse` (dense or sparse; a
state every such sequence reaches), `UpdateScalarDivide(0)` fails and leaves the
instance, every store and the index, as it was, and `UpdateScalarDivide(d)` with
`d ≠ 0` completes. -/
theorem UpdateScalarDivide_fails_exactly_on_zero (dense : Bool)
    (calls : List AvgSparse.AddCall) (d : Int) (hd : d ≠ 0) :
    ∃ v, AvgSparse.Adds (MakeAvgSparse dense) calls = some v ∧
      v.UpdateScalarDivide 0 = none ∧
      v.UpdateScalarDivideOutcome 0 = (v, false) ∧
      ∃ w, v.UpdateScalarDivide d = some w ∧ v.UpdateScalarDivideOutcome d = (w, true) := by
  obtain ⟨v, hv, hnil, _, _⟩ := addsInv_Adds calls (MakeAvgSparse dense) (addsInv_Make dense)
  obtain ⟨r, hr⟩ := rangeStores_total
    (fun val => (val.Each (AvgSparse.divideCell d) ()).map Prod.fst) v.stores
    (fun s hs => divide_store_total d s (hnil s hs))
  refine ⟨v, hv, by simp [AvgSparse.UpdateScalarDivide],
    by simp [AvgSparse.UpdateScalarDivideOutcome], { v with stores := r }, ?_, ?_⟩
  · simp only [AvgSparse.UpdateScalarDivide, hd, if_false, hr]
  · simp only [AvgSparse.UpdateScalarDivideOutcome, hd, if_false,
      rangeStoresOutcome_of_some _ _ _ hr]

/-- C17, an instance: the sparse instance after `Add(1, 0, "A", 7)` and
`Add(2, 3, "B", -5)`, and the divisor 2. -/
theorem UpdateScalarDivide_fails_exactly_on_zero_witness :
    (2 : Int) ≠ 0 ∧
      ∃ v, AvgSparse.Adds (MakeAvgSparse false)
          [(1, 0, Feature.str "A", 7), (2, 3, Feature.str "B", -5)] = some v ∧
        v.UpdateScalarDivide 0 = none ∧
        v.UpdateScalarDivideOutcome 0 = (v, false) ∧
        ∃ w, v.UpdateScalarDivide 2 = some w ∧ v.UpdateScalarDivideOutcome 2 = (w, true) :=
  ⟨by decide,
    UpdateScalarDivide_fails_exactly_on_zero false
      [(1, 0, Feature.str "A", 7), (2, 3, Feature.str "B", -5)] 2 (by decide)⟩

/-! ### C13: the offsets of the index are positions of `stores` -/

theorem getElem?_some_lt {α : Type} {xs : List α} {i : Nat} {x : α} (h : xs[i]? = some x) :
    i < xs.length := by
  by_contra hge
  rw [List.getElem?_eq_none (not_lt.mp hge)] at h
  exact Option.noConfusion h

theorem lookup_overwrite_cases {α : Type} (m : List (Feature × α)) (k k1 : Feature) (x y : α)
    (h : (m.map fun e => if e.1 == k then (k, x) else e).lookup k1 = some y) :
    (k1 = k ∧ y = x) ∨ m.lookup k1 = some y := by
  induction m with
  | nil => simp [List.lookup] at h
  | cons e m ih =>
    obtain ⟨k2, x2⟩ := e
    by_cases hk : k2 = k
    · subst hk
      rw [List.map_cons, if_pos (beq_self_eq_true k2)] at h
      by_cases hk1 : k1 = k2
      · subst hk1
        simp only [List.lookup, beq_self_eq_true, Option.some.injEq] at h
        exact Or.inl ⟨rfl, h.symm⟩
      · have hb : (k1 == k2) = false := by simpa using hk1
        simp only [List.lookup, hb] at h ⊢
        exact ih h
    · have hb2 : ¬ ((k2 == k) = true) := by simpa using hk
      rw [List.map_cons, if_neg hb2] at h
      by_cases hk1 : k1 = k2
      · subst hk1
        simp only [List.lookup, beq_self_eq_true, Option.some.injEq] at h ⊢
        exact Or.inr h
      · have hb : (k1 == k2) = false := by simpa using hk1
        simp only [List.lookup, hb] at h ⊢
        exact ih h

theorem lookup_mapSet_cases {α : Type} (m : List (Feature × α)) (k k1 : Feature) (x y : α)
    (h : (mapSet m k x).lookup k1 = some y) : (k1 = k ∧ y = x) ∨ m.lookup k1 = some y := by
  unfold mapSet at h
  cases hm : m.lookup k with
  | none =>
    simp only [hm] at h
    rcases lookup_append_new m k k1 x y h with h1 | ⟨_, h2, h3⟩
    · exact Or.inr h1
    · exact Or.inl ⟨h2, h3⟩
  | some z =>
    simp only [hm] at h
    exact lookup_overwrite_cases m k k1 x y h

theorem indexInv_append (v : AvgSparse) (f : Feature) (s2 : TransitionScoreStore)
    (hne : s2 ≠ TransitionScoreStore.nil) (hinv : indexInv v) :
    indexInv { v with
      Vals := mapSet v.Vals f v.stores.length
      stores := v.stores ++ [s2] } := by
  intro f1 o1 h
  rcases lookup_mapSet_cases _ _ _ _ _ h with ⟨_, h1⟩ | h1
  · subst h1
    exact ⟨s2, by simp, hne⟩
  · obtain ⟨s, hs, hsne⟩ := hinv f1 o1 h1
    exact ⟨s, by simp only [List.getElem?_append_left (getElem?_some_lt hs), hs], hsne⟩

theorem indexInv_Add (v : AvgSparse) (g : Int) (t : Nat) (f : Feature) (d : Int)
    (hinv : indexInv v) : ∃ v1, v.Add g t f d = some v1 ∧ indexInv v1 := by
  cases hlook : v.Vals.lookup f with
  | some o =>
    obtain ⟨s, hget, hne⟩ := hinv f o hlook
    obtain ⟨s1, hs1, hne1⟩ := store_Add_total s g t f d hne
    refine ⟨_, AvgSparse.Add_known v g t f d o s s1 hlook hget hs1, ?_⟩
    intro f1 o1 h
    obtain ⟨s3, hs3, hne3⟩ := hinv f1 o1 h
    by_cases ho : o = o1
    · subst ho
      exact ⟨s1, by simp [List.getElem?_set, getElem?_some_lt hget], hne1⟩
    · exact ⟨s3, by simp only [List.getElem?_set_ne ho, hs3], hne3⟩
  | none =>
    obtain ⟨s2, hne, hadd⟩ := AvgSparse.Add_new v g t f d hlook
    have happ := indexInv_append v f s2 hne hinv
    simp only [mapSet, hlook] at happ
    exact ⟨_, hadd, happ⟩

theorem setValues_total (g : Int) (vals : List Int) (i : Nat) (s : TransitionScoreStore)
    (hs : s ≠ TransitionScoreStore.nil)
    (hP : ∀ l, s = TransitionScoreStore.array l → i < 94 ∨ l.Data.length ≤ i + 1) :
    ∃ s1, AvgSparse.setValues g i vals s = some s1 ∧ s1 ≠ TransitionScoreStore.nil := by
  induction vals generalizing i s with
  | nil => exact ⟨s, rfl, hs⟩
  | cons value rest ih =>
    cases s with
    | nil => exact absurd rfl hs
    | array l =>
      obtain ⟨l1, hl1, hlen⟩ := LockedArray.SetValue_total l i (NewHistoryValue g value)
        (hP l rfl)
      obtain ⟨s1, hs1, hne⟩ := ih (i + 1) (TransitionScoreStore.array l1) (by simp)
        (fun l2 h2 => by
          have : l1 = l2 := by simpa using h2
          subst this
          exact Or.inr (by omega))
      exact ⟨s1, by simp [AvgSparse.setValues, TransitionScoreStore.SetValue, hl1, hs1], hne⟩
    | map l =>
      obtain ⟨s1, hs1, hne⟩ := ih (i + 1)
        (TransitionScoreStore.map (l.SetValue i (NewHistoryValue g value))) (by simp)
        (fun l2 h2 => by simp at h2)
      exact ⟨s1, by simp [AvgSparse.setValues, TransitionScoreStore.SetValue, hs1], hne⟩

theorem deserializeLoop_total (g : Int) (data : List (Feature × List Int)) (v : AvgSparse)
    (hinv : indexInv v) : ∃ w, AvgSparse.deserializeLoop g data v = some w ∧ indexInv w := by
  induction data generalizing v with
  | nil => exact ⟨v, rfl, hinv⟩
  | cons e rest ih =>
    obtain ⟨k, datav⟩ := e
    have hnew : v.newTransitionScoreStore datav.length ≠ TransitionScoreStore.nil := by
      unfold AvgSparse.newTransitionScoreStore
      cases v.Dense <;> simp
    obtain ⟨s1, hs1, hne⟩ := setValues_total g datav 0 _ hnew (fun _ _ => Or.inl (by omega))
    obtain ⟨w, hw, hinvw⟩ := ih _ (indexInv_append v k s1 hne hinv)
    exact ⟨w, by simp only [AvgSparse.deserializeLoop, hs1, hw], hinvw⟩

theorem indexInv_Deserialize (v : AvgSparse) (data : List (Feature × List Int)) (g : Int) :
    ∃ w, v.Deserialize data g = some w ∧ indexInv w := by
  apply deserializeLoop_total
  intro f o h
  simp [List.lookup] at h

theorem indexInv_Calls (calls : List Call) (v : AvgSparse) (hinv : indexInv v) :
    ∃ w, AvgSparse.Calls v calls = some w ∧ indexInv w := by
  induction calls generalizing v with
  | nil => exact ⟨v, rfl, hinv⟩
  | cons c rest ih =>
    cases c with
    | add g t f d =>
      obtain ⟨v1, hv1, hinv1⟩ := indexInv_Add v g t f d hinv
      obtain ⟨w, hw, hinvw⟩ := ih v1 hinv1
      exact ⟨w, by simp only [AvgSparse.Calls, hv1, hw], hinvw⟩
    | deserialize data g =>
      obtain ⟨v1, hv1, hinv1⟩ := indexInv_Deserialize v data g
      obtain ⟨w, hw, hinvw⟩ := ih v1 hinv1
      exact ⟨w, by simp only [AvgSparse.Calls, hv1, hw], hinvw⟩

/-- C13: every sequence of `Add` and `Deserialize` calls on the instance `MakeAvgSparse`
returns (dense or sparse) runs to its end, and in the state it reaches every feature
key `f` present in the index satisfies `0 ≤ index[f] < len(stores)`. -/
theorem index_offsets_are_valid (dense : Bool) (calls : List Call) :
    ∃ v, AvgSparse.Calls (MakeAvgSparse dense) calls = some v ∧
      ∀ f, f ∈ mapKeys v.Vals →
        ∃ o, v.Vals.lookup f = some o ∧ 0 ≤ o ∧ o < v.stores.length := by
  have hinit : indexInv (MakeAvgSparse dense) := by
    intro f o h
    simp [MakeAvgSparse, List.lookup] at h
  obtain ⟨v, hv, hinv⟩ := indexInv_Calls calls (MakeAvgSparse dense) hinit
  refine ⟨v, hv, ?_⟩
  intro f hf
  obtain ⟨o, ho⟩ := lookup_isSome_of_mem_keys v.Vals f hf
  obtain ⟨s, hs, _⟩ := hinv f o ho
  exact ⟨o, ho, Nat.zero_le o, getElem?_some_lt hs⟩

/-! ### C21: `UpdateScalarDivide` on the sparse flavour -/

theorem wrapInt64_of_int64 (x : Int) (hlo : minInt64 ≤ x) (hhi : x ≤ maxInt64) :
    wrapInt64 x = x := by
  unfold wrapInt64
  unfold minInt64 at hlo ⊢
  unfold maxInt64 at hhi
  rw [Int.emod_eq_of_lt (by omega) (by omega)]
  omega

theorem LockedMap.eachLoop_divideInt64 (d : Int) (vals : List (Nat × HistoryValue)) :
    LockedMap.eachLoop (AvgSparse.divideCellInt64 d) vals () =
      some (vals.map fun e => (e.1, dividedCellInt64 d e.2), ()) := by
  induction vals with
  | nil => rfl
  | cons e rest ih =>
    obtain ⟨i, hist⟩ := e
    simp only [LockedMap.eachLoop, AvgSparse.divideCellInt64, ih, List.map_cons,
      dividedCellInt64]

theorem rangeStores_divideInt64 (d : Int) (stores : List TransitionScoreStore)
    (hmaps : ∀ s ∈ stores, ∃ l, s = TransitionScoreStore.map l) :
    rangeStores (fun val => (val.Each (AvgSparse.divideCellInt64 d) ()).map Prod.fst) stores =
      some (stores.map (dividedStoreInt64 d)) := by
  induction stores with
  | nil => rfl
  | cons s rest ih =>
    obtain ⟨l, hl⟩ := hmaps s (List.mem_cons_self _ _)
    have hrest := ih fun s1 hs1 => hmaps s1 (List.mem_cons_of_mem _ hs1)
    subst hl
    have hhead :
        ((TransitionScoreStore.map l).Each (AvgSparse.divideCellInt64 d) ()).map Prod.fst =
          some (dividedStoreInt64 d (TransitionScoreStore.map l)) := by
      simp only [TransitionScoreStore.Each, LockedMap.Each, LockedMap.eachLoop_divideInt64,
        Option.map_some', dividedStoreInt64]
    simp only [rangeStores, hhead, hrest, List.map_cons]

theorem UpdateScalarDivideInt64_sparse (v : AvgSparse) (d : Int) (hd : d ≠ 0)
    (hinv : sparseInv v) :
    v.UpdateScalarDivideInt64 d = some { v with stores := v.stores.map (dividedStoreInt64 d) } := by
  simp only [AvgSparse.UpdateScalarDivideInt64, hd, if_false,
    rangeStores_divideInt64 d v.stores hinv.2.1]

/-- C21 (as amended): on every sparse `AvgSparse` built by Adds from
`MakeAvgSparse(false)` (a state every such sequence reaches, all of whose stores are
`LockedMap`) and for every divisor `d ≠ 0`, `UpdateScalarDivide(d)` completes; afterwards
the index and the number of stores are what they were, every store has the transitions
it had, and every present cell has its old `Generation`, `PrevGeneration`, `Total` and
`IsSet`, and as `Value` the `int64` quotient of Go, which is the quotient of its old
`Value` by `d` rounded toward zero whenever that quotient is an `int64` (-3 divided by 2
gives -1, not -2). -/
theorem sparse_divide_touches_only_Value (calls : List AvgSparse.AddCall) (d : Int)
    (hd : d ≠ 0) :
    ∃ v w, AvgSparse.Adds (MakeAvgSparse false) calls = some v ∧
      (∀ s ∈ v.stores, ∃ l, s = TransitionScoreStore.map l) ∧
      v.UpdateScalarDivideInt64 d = some w ∧
      w.Vals = v.Vals ∧ w.stores.length = v.stores.length ∧
      (∀ (k : Nat) (l : LockedMap), v.stores[k]? = some (TransitionScoreStore.map l) →
        ∃ l1, w.stores[k]? = some (TransitionScoreStore.map l1) ∧
          mapKeys l1.Vals = mapKeys l.Vals ∧
          ∀ t cell, l.GetValue t = some cell →
            l1.GetValue t = some
                { Generation := cell.Generation, PrevGeneration := cell.PrevGeneration,
                  Value := int64Quo cell.Value d, Total := cell.Total,
                  IsSet := cell.IsSet } ∧
              (minInt64 ≤ cell.Value.tdiv d → cell.Value.tdiv d ≤ maxInt64 →
                int64Quo cell.Value d = cell.Value.tdiv d)) ∧
      int64Quo (-3) 2 = -1 := by
  obtain ⟨v, hv, hinv⟩ := sparseInv_Adds calls (MakeAvgSparse false) sparseInv_Make
  refine ⟨v, { v with stores := v.stores.map (dividedStoreInt64 d) }, hv, hinv.2.1,
    UpdateScalarDivideInt64_sparse v d hd hinv, rfl, by simp, ?_, by decide⟩
  intro k l hk
  refine ⟨{ Vals := l.Vals.map fun e => (e.1, dividedCellInt64 d e.2) }, ?_, ?_, ?_⟩
  · simp only [List.getElem?_map, hk, Option.map_some', dividedStoreInt64]
  · simp only [mapKeys, List.map_map]
    rfl
  · intro t cell hcell
    refine ⟨?_, fun hlo hhi => wrapInt64_of_int64 _ hlo hhi⟩
    simp only [LockedMap.GetValue] at hcell ⊢
    rw [lookup_map_snd, hcell]
    rfl

/-- C21, an instance of the amended claim: the sparse instance after
`Add(1, 0, "A", -3)` and `Add(2, 5, "B", 7)`, and the divisor 2. -/
theorem sparse_divide_touches_only_Value_witness :
    (2 : Int) ≠ 0 ∧
      ∃ v w, AvgSparse.Adds (MakeAvgSparse false)
          [(1, 0, Feature.str "A", -3), (2, 5, Feature.str "B", 7)] = some v ∧
        (∀ s ∈ v.stores, ∃ l, s = TransitionScoreStore.map l) ∧
        v.UpdateScalarDivideInt64 2 = some w ∧
        w.Vals = v.Vals ∧ w.stores.length = v.stores.length ∧
        (∀ (k : Nat) (l : LockedMap), v.stores[k]? = some (TransitionScoreStore.map l) →
          ∃ l1, w.stores[k]? = some (TransitionScoreStore.map l1) ∧
            mapKeys l1.Vals = mapKeys l.Vals ∧
            ∀ t cell, l.GetValue t = some cell →
              l1.GetValue t = some
                  { Generation := cell.Generation, PrevGeneration := cell.PrevGeneration,
                    Value := int64Quo cell.Value 2, Total := cell.Total,
                    IsSet := cell.IsSet } ∧
                (minInt64 ≤ cell.Value.tdiv 2 → cell.Value.tdiv 2 ≤ maxInt64 →
                  int64Quo cell.Value 2 = cell.Value.tdiv 2)) ∧
        int64Quo (-3) 2 = -1 :=
  ⟨by decide,
    sparse_divide_touches_only_Value
      [(1, 0, Feature.str "A", -3), (2, 5, Feature.str "B", 7)] 2 (by decide)⟩

/-- C21 as stated fails at the one overflow of the `int64` quotient: on the sparse
instance after `Add(1, 0, "A", -9223372036854775808)`, whose cell `(0, "A")` holds the
least `int64`, `UpdateScalarDivide(-1)` leaves that cell with the least `int64` as
`Value`, whereas the quotient rounded toward zero is 9223372036854775808, which is not
an `int64`. -/
theorem sparse_divide_overflows_at_least_int64 :
    (AvgSparse.Adds (MakeAvgSparse false)
        [(1, 0, Feature.str "A", -9223372036854775808)]).map (fun v => v.stores) =
        some [TransitionScoreStore.map
          { Vals := [(0, NewHistoryValue 1 (-9223372036854775808))] }] ∧
      ((AvgSparse.Adds (MakeAvgSparse false)
        [(1, 0, Feature.str "A", -9223372036854775808)]).bind
        fun v => (v.UpdateScalarDivideInt64 (-1)).map fun w => w.stores) =
        some [TransitionScoreStore.map
          { Vals := [(0, NewHistoryValue 1 (-9223372036854775808))] }] ∧
      Int.tdiv (-9223372036854775808) (-1) = 9223372036854775808 ∧
      ¬ (9223372036854775808 : Int) ≤ maxInt64 :=
  ⟨by decide, by decide, by decide, by decide⟩

/-! ### C18: the order of Adds on disjoint pairs -/

/-- C18 at a failing input: two workers with one `Add` each on a dense instance, on the
disjoint pairs `("A", 0)` and `("A", 1)`.  The interleaving in which `Add(1, 0, "A", 3)`
runs first ends with `Value(0, "A") = 0`, the one in which `Add(1, 1, "A", 2)` runs
first ends with `Value(0, "A") = 3`, and the two final states differ: they cannot both
be the state of the sequential execution. -/
theorem disjoint_Adds_depend_on_order :
    (AvgSparse.Adds (MakeAvgSparse true)
        [(1, 0, Feature.str "A", 3), (1, 1, Feature.str "A", 2)]).bind
        (fun v => v.Value 0 (Feature.str "A")) = some 0 ∧
      (AvgSparse.Adds (MakeAvgSparse true)
        [(1, 1, Feature.str "A", 2), (1, 0, Feature.str "A", 3)]).bind
        (fun v => v.Value 0 (Feature.str "A")) = some 3 ∧
      AvgSparse.Adds (MakeAvgSparse true)
          [(1, 0, Feature.str "A", 3), (1, 1, Feature.str "A", 2)] ≠
        AvgSparse.Adds (MakeAvgSparse true)
          [(1, 1, Feature.str "A", 2), (1, 0, Feature.str "A", 3)] :=
  ⟨by decide, by decide, by decide⟩

end Yap
